import Mathlib

/-!
Shallow embedding of comsci_lzw.js and verification of its specification.

Modelling conventions, stated once here and referenced below:

* A JavaScript input string is modelled as its UTF-8 byte sequence
  `List Nat`.  The helpers `_stringToUtf8` and `_utf8ToString` of the
  source (lines 21-22) are an external text/byte conversion, declared out
  of scope by the spec (section 6); they are modelled as the identity on
  byte sequences, so `lzwCompress` and `lzwDecompress` here work directly
  on byte lists.
* A value stored in an encoding array is either a one-character string
  (a literal byte), a JavaScript number (a learned dictionary index), or
  the JavaScript value `undefined` (which the source can push when a
  dictionary lookup misses).  This is the inductive type `JSym`.
* A JavaScript object used as a dictionary is modelled as an association
  list with first-match lookup; inserting a key conses it at the front,
  which is observationally the map update of the source because the
  source never inserts a key that is already present.  A truthiness test
  `if (dict[k])` is modelled as key presence plus an explicit emptiness
  test on the found value where the source value could be a string.
  A plain object also inherits `Object.prototype`, which the association
  list does not: the decompressor is unaffected (all its keys are
  one-character strings, decimal numerals of indices at least 256, or the
  coerced strings of `undefined` and of functions, none a prototype
  property name), but the compressor tests arbitrary phrase strings, and
  a phrase spelling a prototype property name reads a truthy inherited
  function.  The `JS`-suffixed variants below model that inheritance
  faithfully; the bridge theorems `lzwLoopJS_eq` and `lzwCompressJS_eq`
  show the prototype-free model is exact on every input in which no
  prototype property name occurs as a substring.
* Exceptions are modelled with `Except`: `DErr.badlyCompressed` is the
  `throw new Error("badly compressed.")` of line 74, and
  `DErr.typeErrorUndefined` is the TypeError JavaScript raises when
  `prevcode[0]` is read from `undefined` (reachable only when the first
  symbol of the input array is `undefined`).
-/

/-- Error raised by the decompressor. -/
inductive DErr where
  | badlyCompressed : DErr
  | typeErrorUndefined : DErr
deriving DecidableEq

/-- A value appearing in an encoding array: a one-character string holding a
literal byte, a number (learned dictionary index), or JavaScript undefined. -/
inductive JSym where
  | chr (b : Nat) : JSym
  | num (n : Nat) : JSym
  | undef : JSym
deriving DecidableEq

/-- Fuelled decimal digit extraction; fuel `v` always suffices. -/
def decDigitsF : Nat → Nat → List Nat
  | _, 0 => []
  | 0, _ + 1 => []
  | f + 1, v + 1 => decDigitsF f ((v + 1) / 10) ++ [48 + (v + 1) % 10]

/-- Character codes of the decimal representation of a natural number, as
JavaScript produces when a number is coerced to a string. -/
def digitsStr (n : Nat) : List Nat :=
  if n = 0 then [48] else decDigitsF n n

/-- Character codes of the string JavaScript prints for `undefined`. -/
def undefinedStr : List Nat :=
  [117, 110, 100, 101, 102, 105, 110, 101, 100]

/-- String coercion of a `JSym`, as in the template literal of line 72. -/
def JSym.toStr : JSym → List Nat
  | .chr b => [b]
  | .num n => digitsStr n
  | .undef => undefinedStr

/-- Result of reading `v[0]` and coercing it to a string: for a one-character
string it is that character, for a number it is `undefined` printed as a
string, and for `undefined` itself the access throws (`none`). -/
def JSym.firstStr : JSym → Option (List Nat)
  | .chr b => some [b]
  | .num _ => some undefinedStr
  | .undef => none

/-- Contribution of a raw `JSym` to `output.join('')` (line 86): `join` renders
`undefined` as the empty string. -/
def JSym.outStr : JSym → List Nat
  | .chr b => [b]
  | .num n => digitsStr n
  | .undef => []

/-- Numeric value used by `convertEncodingArrayUnitLength` (line 103):
`charCodeAt(0)` for a one-character string, the number itself otherwise.
JavaScript `undefined` serialises exactly like `0` there, because the
`while (ch)` loop never runs on a falsy value. -/
def JSym.code : JSym → Nat
  | .chr b => b
  | .num n => n
  | .undef => 0

/-- Association-list lookup, first match wins: the model of reading a
property of a plain JavaScript object. -/
def alookup {α : Type} [DecidableEq α] {β : Type} : List (α × β) → α → Option β
  | [], _ => none
  | (k, v) :: rest, key => if k = key then some v else alookup rest key

/-- Compression dictionary: phrase (byte string) to bound symbol. -/
def CDict : Type := List (List Nat × JSym)

/-- Decompression dictionary: symbol to phrase. -/
def DDict : Type := List (JSym × List Nat)

/-- First `t` entries of the initial compression dictionary of
`_buildDictionary` (lines 27-34): each single byte mapped to itself. -/
def initCAux : Nat → CDict
  | 0 => []
  | t + 1 => ([t], JSym.chr t) :: initCAux t

/-- Initial compression dictionary: 256 single-byte identity entries. -/
def initC : CDict := initCAux 256

/-- First `t` entries of the initial decompression dictionary; the same 256
identity entries, keyed by the one-character string. -/
def initDAux : Nat → DDict
  | 0 => []
  | t + 1 => (JSym.chr t, [t]) :: initDAux t

/-- Initial decompression dictionary. -/
def initD : DDict := initDAux 256

/-- Dictionary capacity (line 24). -/
def DICT_SIZE : Nat := 512

/-- Bits per packed code: `Math.ceil(Math.log2(DICT_SIZE))` = 9 (line 25). -/
def BITS_PER_ENCODING : Nat := 9

/-- Lines 49 and 52-55 of `lzwCompress`: insert the new phrase at the current
index, bump the index, and hard-reset when the index reaches `DICT_SIZE`. -/
def cinsert (d : CDict) (n : Nat) (q : List Nat) : CDict × Nat :=
  let d' := (q, JSym.num n) :: d
  if n + 1 ≥ DICT_SIZE then (initC, 256) else (d', n + 1)

/-- Lines 78 and 81-84 of `lzwDecompress`: the mirror insertion and reset. -/
def dinsert (e : DDict) (m : Nat) (q : List Nat) : DDict × Nat :=
  let e' := (JSym.num m, q) :: e
  if m + 1 ≥ DICT_SIZE then (initD, 256) else (e', m + 1)

/-- Main loop of `lzwCompress` (lines 43-58), including the final flush, with
the dictionary read over the inserted entries only (the prototype-free
reading of line 45; `lzwLoopJS` below adds the inherited `Object.prototype`
entries, and the two agree away from prototype-name phrases).  When
`dict[s]` is missing the source pushes JavaScript `undefined`; this is the
`JSym.undef` default (it never happens on byte inputs, which is proved below). -/
def lzwLoop (d : CDict) (n : Nat) (s : List Nat) : List Nat → List JSym
  | [] => if s = [] then [] else [(alookup d s).getD JSym.undef]
  | c :: cs =>
    if (alookup d (s ++ [c])).isSome then
      lzwLoop d n (s ++ [c]) cs
    else
      (alookup d s).getD JSym.undef ::
        (let p := cinsert d n (s ++ [c])
         lzwLoop p.1 p.2 [c] cs)

/-- The function `lzwCompress` (lines 38-60) on a byte sequence.  The source
returns the pair `[output, dict]`; the dictionary component is used by no
caller and is dropped here. -/
def lzwCompress (inputData : List Nat) : List JSym :=
  lzwLoop initC 256 [] inputData

/-- Lines 71-75: when `!data`, either reconstruct the self-referential phrase
`prevcode + prevcode[0]` if `currcode == dictLen`, or fail. -/
def resolveFallback (m : Nat) (pstr : List Nat) (pfirst : Option (List Nat))
    (c : JSym) : Except DErr (List Nat) :=
  if c = JSym.num m then
    match pfirst with
    | some f => .ok (pstr ++ f)
    | none => .error DErr.typeErrorUndefined
  else
    .error DErr.badlyCompressed

/-- Lines 69-76: resolve `data` for the current code.  A found value that is
the empty string is falsy in JavaScript and also goes to the fallback.
The lookup compares symbols as `JSym` values, while JavaScript coerces a
numeric property key to its decimal string, so `dict[5]` is `dict["5"]`
and hits the identity entry of the digit character 53; the two readings
differ only for numeric symbols 0-9, which lie outside the code alphabet
(literals arrive as one-character strings, learned indices start at 256)
and are produced by no function of the source. -/
def resolveData (e : DDict) (m : Nat) (pstr : List Nat)
    (pfirst : Option (List Nat)) (c : JSym) : Except DErr (List Nat) :=
  match alookup e c with
  | some p => if p = [] then resolveFallback m pstr pfirst c else .ok p
  | none => resolveFallback m pstr pfirst c

/-- Main loop of `lzwDecompress` (lines 68-85) over the codes after the first.
The running `prevcode` is carried as its string form `pstr` together with
`pfirst`, the (possibly throwing) string form of `prevcode[0]`. -/
def dzwLoop (e : DDict) (m : Nat) (pstr : List Nat)
    (pfirst : Option (List Nat)) : List JSym → Except DErr (List Nat)
  | [] => .ok []
  | c :: cs =>
    match resolveData e m pstr pfirst c with
    | .error err => .error err
    | .ok data =>
      let p := dinsert e m (pstr ++ data.take 1)
      match dzwLoop p.1 p.2 data (some (data.take 1)) cs with
      | .error err => .error err
      | .ok rest => .ok (data ++ rest)

/-- The function `lzwDecompress` (lines 62-87) producing the byte sequence.
On an empty array the source pushes `undefined` as `prevcode` and `join`
renders it as the empty string, so the result is empty. -/
def lzwDecompress (encodingArray : List JSym) : Except DErr (List Nat) :=
  match encodingArray with
  | [] => .ok []
  | c :: cs =>
    match dzwLoop initD 256 c.toStr c.firstStr cs with
    | .error err => .error err
    | .ok rest => .ok (c.outStr ++ rest)

/-- Sequence of `dictLen` values observed by `lzwCompress`: its value at the
end of each loop iteration that performed an insertion (after the reset
check).  Instrumentation of `lzwLoop` for the lockstep property. -/
def lzwLoopTrace (d : CDict) (n : Nat) (s : List Nat) : List Nat → List Nat
  | [] => []
  | c :: cs =>
    if (alookup d (s ++ [c])).isSome then
      lzwLoopTrace d n (s ++ [c]) cs
    else
      let p := cinsert d n (s ++ [c])
      p.2 :: lzwLoopTrace p.1 p.2 [c] cs

/-- Observed `dictLen` sequence of a whole `lzwCompress` call. -/
def lzwCompressDictLens (inputData : List Nat) : List Nat :=
  lzwLoopTrace initC 256 [] inputData

/-- Instrumentation of `dzwLoop`: `dictLen` after each insertion and reset
check; the trace stops where the call would throw. -/
def dzwLoopTrace (e : DDict) (m : Nat) (pstr : List Nat)
    (pfirst : Option (List Nat)) : List JSym → List Nat
  | [] => []
  | c :: cs =>
    match resolveData e m pstr pfirst c with
    | .error _ => []
    | .ok data =>
      let p := dinsert e m (pstr ++ data.take 1)
      p.2 :: dzwLoopTrace p.1 p.2 data (some (data.take 1)) cs

/-- Observed `dictLen` sequence of a whole `lzwDecompress` call. -/
def lzwDecompressDictLens (encodingArray : List JSym) : List Nat :=
  match encodingArray with
  | [] => []
  | c :: cs => dzwLoopTrace initD 256 c.toStr c.firstStr cs

/-- Fuelled little-endian bit extraction, the `while (ch) { push(ch % 2);
ch >>= 1 }` loop of lines 105-108.  Fuel `v` always suffices. -/
def bitsLEF : Nat → Nat → List Nat
  | _, 0 => []
  | 0, _ + 1 => []
  | f + 1, v + 1 => (v + 1) % 2 :: bitsLEF f ((v + 1) / 2)

/-- Little-endian binary digits of `v` (empty for 0), as the source computes. -/
def bitsLE (v : Nat) : List Nat := bitsLEF v v

/-- Line 109: left-pad the reversed digits to the unit width.  `'0'.repeat`
throws on a negative count, i.e. exactly when the value needs more than
`w` bits; that is the `none` case. -/
def encodeUnit (w : Nat) (v : Nat) : Option (List Nat) :=
  let ba := bitsLE v
  if ba.length ≤ w then some (List.replicate (w - ba.length) 0 ++ ba.reverse)
  else none

/-- Binary strings of all units, failing like the source at any oversized
value (lines 102-110). -/
def encodeAll (w : Nat) : List Nat → Option (List (List Nat))
  | [] => some []
  | x :: xs =>
    match encodeUnit w x, encodeAll w xs with
    | some u, some us => some (u :: us)
    | _, _ => none

/-- Value of one target-width group (lines 116-124): MSB-first accumulation
over `b` positions, missing positions acting as 0 bits. -/
def fromBits (l : List Nat) : Nat :=
  l.foldl (fun o bit => 2 * o + (if bit = 1 then 1 else 0)) 0

/-- Value of a chunk padded on the right to width `b`, as the inner loop of
lines 118-124 produces for a short final chunk. -/
def chunkVal (b : Nat) (chunk : List Nat) : Nat :=
  fromBits (chunk ++ List.replicate (b - chunk.length) 0)

/-- Fuelled re-slicing loop of lines 113-126.  Fuel `bits.length` suffices
for every `b ≥ 1`; the source itself would not terminate for `b = 0`,
a width no caller uses. -/
def resliceF (b : Nat) (d : Bool) : Nat → List Nat → List Nat
  | _, [] => []
  | 0, _ :: _ => []
  | f + 1, bits =>
    if d ∧ bits.length < b then []
    else chunkVal b (bits.take b) :: resliceF b d f (bits.drop b)

/-- Re-slice a bit string into groups of `b`, optionally discarding a short
final group (the `discardIncompleteUnit && byteBinary.length < targetUnitLength`
test of line 117). -/
def reslice (b : Nat) (d : Bool) (bits : List Nat) : List Nat :=
  resliceF b d bits.length bits

/-- The function `convertEncodingArrayUnitLength` (lines 100-128) on numeric
values (callers apply `JSym.code` first, the model of the `charCodeAt`
dispatch of line 103).  `none` models the `'0'.repeat` RangeError. -/
def convertEncodingArrayUnitLength (encodingArray : List Nat)
    (originalUnitLength targetUnitLength : Nat)
    (discardIncompleteUnit : Bool) : Option (List Nat) :=
  match encodeAll originalUnitLength encodingArray with
  | some us => some (reslice targetUnitLength discardIncompleteUnit us.flatten)
  | none => none

/-- The function `getByteArrayFromEncodingArray` (lines 92-94): pack codes
into bytes, passing `false` for the discard flag. -/
def getByteArrayFromEncodingArray (encodingArray : List JSym) : Option (List Nat) :=
  convertEncodingArrayUnitLength (encodingArray.map JSym.code)
    BITS_PER_ENCODING 8 false

/-- Line 97: map an unpacked value back to a symbol, `v > 255 ? v :
String.fromCharCode(v)`. -/
def symOfVal (v : Nat) : JSym :=
  if 255 < v then JSym.num v else JSym.chr v

/-- The function `getEncodingArrayFromByteArray` (lines 96-98): unpack bytes
into code-width values with `true` for the discard flag, then remap to
symbols. -/
def getEncodingArrayFromByteArray (byteArray : List Nat) : Option (List JSym) :=
  match convertEncodingArrayUnitLength byteArray 8 BITS_PER_ENCODING true with
  | some vs => some (vs.map symOfVal)
  | none => none

/-! ### Basic lookup lemmas -/

/-- Unfolding lemma for `alookup` on a cons cell. -/
theorem alookup_cons {α : Type} [DecidableEq α] {β : Type} (a : α) (b : β)
    (l : List (α × β)) (k : α) :
    alookup ((a, b) :: l) k = if a = k then some b else alookup l k := rfl

/-- Lookup of a singleton key in a partial initial compression dictionary. -/
theorem alookup_initCAux (t b : Nat) :
    alookup (initCAux t) [b] = if b < t then some (JSym.chr b) else none := by
  induction t with
  | zero => simp [initCAux, alookup]
  | succ t ih =>
    simp only [initCAux, alookup_cons, ih]
    by_cases h : t = b
    · subst h; simp
    · simp only [List.cons.injEq, and_true, h, if_false]
      by_cases hb : b < t
      · simp [hb, Nat.lt_succ_of_lt hb]
      · have : ¬ b < t + 1 := by omega
        simp [hb, this]

/-- Any hit in a partial initial compression dictionary is an identity entry. -/
theorem alookup_initCAux_some {t : Nat} {p : List Nat} {v : JSym}
    (h : alookup (initCAux t) p = some v) :
    ∃ b, b < t ∧ p = [b] ∧ v = JSym.chr b := by
  induction t with
  | zero => simp [initCAux, alookup] at h
  | succ t ih =>
    simp only [initCAux, alookup_cons] at h
    by_cases hk : [t] = p
    · subst hk
      simp at h
      exact ⟨t, by omega, rfl, h.symm⟩
    · simp only [hk, if_false] at h
      obtain ⟨b, hb, hp, hv⟩ := ih h
      exact ⟨b, by omega, hp, hv⟩

/-- Singleton lookup in the full initial compression dictionary. -/
theorem alookup_initC_sing {b : Nat} (h : b < 256) :
    alookup initC [b] = some (JSym.chr b) := by
  rw [initC, alookup_initCAux]; simp [h]

/-- Every hit in the initial compression dictionary is an identity entry. -/
theorem alookup_initC_some {p : List Nat} {v : JSym}
    (h : alookup initC p = some v) :
    ∃ b, b < 256 ∧ p = [b] ∧ v = JSym.chr b :=
  alookup_initCAux_some h

/-- Multi-byte phrases are absent from the initial compression dictionary. -/
theorem alookup_initC_len2 {p : List Nat} (h : 2 ≤ p.length) :
    alookup initC p = none := by
  cases hl : alookup initC p with
  | none => rfl
  | some v =>
    obtain ⟨b, _, hp, _⟩ := alookup_initC_some hl
    subst hp; simp at h

/-- Character-key lookup in a partial initial decompression dictionary. -/
theorem alookup_initDAux_chr (t b : Nat) :
    alookup (initDAux t) (JSym.chr b) = if b < t then some [b] else none := by
  induction t with
  | zero => simp [initDAux, alookup]
  | succ t ih =>
    simp only [initDAux, alookup_cons, ih]
    by_cases h : t = b
    · subst h; simp
    · simp only [JSym.chr.injEq, h, if_false]
      by_cases hb : b < t
      · simp [hb, Nat.lt_succ_of_lt hb]
      · have : ¬ b < t + 1 := by omega
        simp [hb, this]

/-- Numeric keys are absent from the initial decompression dictionary. -/
theorem alookup_initDAux_num (t k : Nat) :
    alookup (initDAux t) (JSym.num k) = none := by
  induction t with
  | zero => simp [initDAux, alookup]
  | succ t ih => simp [initDAux, alookup_cons, ih]

/-- The undefined key is absent from the initial decompression dictionary. -/
theorem alookup_initDAux_undef (t : Nat) :
    alookup (initDAux t) JSym.undef = none := by
  induction t with
  | zero => simp [initDAux, alookup]
  | succ t ih => simp [initDAux, alookup_cons, ih]

/-- Character-key lookup in the full initial decompression dictionary. -/
theorem alookup_initD_chr {b : Nat} (h : b < 256) :
    alookup initD (JSym.chr b) = some [b] := by
  rw [initD, alookup_initDAux_chr]; simp [h]

/-- Numeric keys are absent from the full initial decompression dictionary. -/
theorem alookup_initD_num (k : Nat) : alookup initD (JSym.num k) = none :=
  alookup_initDAux_num 256 k

/-! ### The compressor/decompressor simulation invariant -/

/-- Well-formed emitted symbol: a literal byte below 256 or a learned index in
`[256, DICT_SIZE)`; never undefined. -/
def JSymOk : JSym → Prop
  | .chr b => b < 256
  | .num k => 256 ≤ k ∧ k < 512
  | .undef => False

/-- Remapping an emitted code value through `symOfVal` restores the symbol. -/
theorem symOfVal_code {c : JSym} (h : JSymOk c) : symOfVal c.code = c := by
  cases c with
  | chr b =>
    simp only [JSymOk] at h
    simp only [JSym.code, symOfVal]
    have : ¬ 255 < b := by omega
    simp [this]
  | num k =>
    simp only [JSymOk] at h
    simp only [JSym.code, symOfVal]
    have : 255 < k := by omega
    simp [this]
  | undef => simp [JSymOk] at h

/-- Properties of a reachable decompression dictionary state. -/
structure DP (e : DDict) (m : Nat) : Prop where
  mlo : 256 ≤ m
  mhi : m ≤ 511
  chr : ∀ b, b < 256 → alookup e (JSym.chr b) = some [b]
  numhi : ∀ k, m ≤ k → alookup e (JSym.num k) = none

/-- Cross-link between a compression dictionary and a decompression dictionary
holding the same entries: singleton identities are present, character-valued
hits are exactly the identities, and every learned binding of the compressor
is mirrored by the decompressor. -/
structure CL (d : CDict) (e : DDict) (m : Nat) : Prop where
  sing : ∀ b, b < 256 → alookup d [b] = some (JSym.chr b)
  chr : ∀ p b, alookup d p = some (JSym.chr b) → p = [b] ∧ b < 256
  num : ∀ p k, alookup d p = some (JSym.num k) →
    256 ≤ k ∧ k < m ∧ alookup e (JSym.num k) = some p
  nundef : ∀ p, alookup d p ≠ some JSym.undef

/-- Relation between the compressor state `(d, n)`, which has already inserted
the pending phrase `qstar`, and the decompressor state `(e, m)`, which will
insert `qstar` when it consumes the next code.  Either the pending insertion
did not trigger a reset (`push`) or it did (`reset`). -/
inductive Off : CDict → Nat → DDict → Nat → List Nat → Prop
  | push (d0 : CDict) (e : DDict) (m : Nat) (q : List Nat) :
      m ≤ 510 → DP e m → CL d0 e m → 2 ≤ q.length →
      Off ((q, JSym.num m) :: d0) (m + 1) e m q
  | reset (e : DDict) (q : List Nat) :
      DP e 511 → Off initC 256 e 511 q

/-- The initial decompression dictionary satisfies the state properties. -/
theorem DP_initD : DP initD 256 where
  mlo := le_refl 256
  mhi := by omega
  chr := fun b hb => alookup_initD_chr hb
  numhi := fun k _ => alookup_initD_num k

/-- The two initial dictionaries are cross-linked. -/
theorem CL_initC_initD : CL initC initD 256 where
  sing := fun b hb => alookup_initC_sing hb
  chr := by
    intro p b h
    obtain ⟨b', hb', hp, hv⟩ := alookup_initC_some h
    cases hv
    exact ⟨hp, hb'⟩
  num := by
    intro p k h
    obtain ⟨b', _, _, hv⟩ := alookup_initC_some h
    cases hv
  nundef := by
    intro p h
    obtain ⟨b', _, _, hv⟩ := alookup_initC_some h
    cases hv


/-- Numeric value of the capacity constant. -/
theorem DICT_SIZE_eq : DICT_SIZE = 512 := rfl

/-- After a non-resetting decompressor insertion, the dictionary properties
still hold. -/
theorem DP_push {e : DDict} {m : Nat} {q : List Nat}
    (hDP : DP e m) (hm : m ≤ 510) :
    DP ((JSym.num m, q) :: e) (m + 1) where
  mlo := by have := hDP.mlo; omega
  mhi := by omega
  chr := by
    intro b hb
    rw [alookup_cons]
    simp only [reduceCtorEq, if_false]
    exact hDP.chr b hb
  numhi := by
    intro k hk
    rw [alookup_cons]
    have hne : JSym.num m ≠ JSym.num k := by
      simp only [ne_eq, JSym.num.injEq]; omega
    simp only [hne, if_false]
    exact hDP.numhi k (by omega)

/-- A matching pair of insertions preserves the cross-link. -/
theorem CL_push {d0 : CDict} {e : DDict} {m : Nat} {q : List Nat}
    (hDP : DP e m) (hCL : CL d0 e m) (hlen : 2 ≤ q.length) :
    CL ((q, JSym.num m) :: d0) ((JSym.num m, q) :: e) (m + 1) where
  sing := by
    intro b hb
    rw [alookup_cons]
    have hne : q ≠ [b] := by
      intro hqe; rw [hqe] at hlen; simp at hlen
    simp only [hne, if_false]
    exact hCL.sing b hb
  chr := by
    intro p b hp
    rw [alookup_cons] at hp
    by_cases hqp : q = p
    · simp [hqp] at hp
    · simp only [hqp, if_false] at hp
      exact hCL.chr p b hp
  num := by
    intro p k hp
    rw [alookup_cons] at hp
    by_cases hqp : q = p
    · rw [if_pos hqp] at hp
      simp only [Option.some.injEq, JSym.num.injEq] at hp
      cases hp
      refine ⟨hDP.mlo, by omega, ?_⟩
      rw [alookup_cons, if_pos rfl]
      rw [hqp]
    · simp only [hqp, if_false] at hp
      obtain ⟨hk1, hk2, hk3⟩ := hCL.num p k hp
      refine ⟨hk1, by omega, ?_⟩
      rw [alookup_cons]
      have hne : JSym.num m ≠ JSym.num k := by
        simp only [ne_eq, JSym.num.injEq]; omega
      simp only [hne, if_false]
      exact hk3
  nundef := by
    intro p hp
    rw [alookup_cons] at hp
    by_cases hqp : q = p
    · simp [hqp] at hp
    · simp only [hqp, if_false] at hp
      exact hCL.nundef p hp

/-- Singleton identity lookups succeed in any `Off`-related compressor
dictionary. -/
theorem Off.sing_lookup {d : CDict} {n : Nat} {e : DDict} {m : Nat}
    {q : List Nat} (h : Off d n e m q) {b : Nat} (hb : b < 256) :
    alookup d [b] = some (JSym.chr b) := by
  induction h with
  | push d0 e m q hm hDP hCL hq =>
    rw [alookup_cons]
    have hne : q ≠ [b] := by
      intro hqe; rw [hqe] at hq; simp at hq
    simp only [hne, if_false]
    exact hCL.sing b hb
  | reset e q hDP => exact alookup_initC_sing hb

/-- Performing the pending decompressor insertion restores the in-sync state:
the new decompressor dictionary satisfies `DP`, is cross-linked with the
compressor dictionary, and its length counter equals the compressor counter. -/
theorem off_step {d : CDict} {n : Nat} {e : DDict} {m : Nat} {qstar : List Nat}
    (h : Off d n e m qstar) :
    DP (dinsert e m qstar).1 (dinsert e m qstar).2
    ∧ CL d (dinsert e m qstar).1 (dinsert e m qstar).2
    ∧ (dinsert e m qstar).2 = n := by
  induction h with
  | push d0 e m q hm hDP hCL hq =>
    have hlt : ¬ m + 1 ≥ DICT_SIZE := by
      rw [DICT_SIZE_eq]; omega
    simp only [dinsert, if_neg hlt]
    exact ⟨DP_push hDP hm, CL_push hDP hCL hq, trivial⟩
  | reset e q hDP =>
    have hge : 511 + 1 ≥ DICT_SIZE := by rw [DICT_SIZE_eq]
    simp only [dinsert, if_pos hge]
    exact ⟨DP_initD, CL_initC_initD, trivial⟩

/-- From an in-sync state, the next compressor insertion re-establishes the
offset relation for the newly inserted phrase. -/
theorem off_next {d : CDict} {e : DDict} {n : Nat} {q' : List Nat}
    (hDP : DP e n) (hCL : CL d e n) (hlen : 2 ≤ q'.length) :
    Off (cinsert d n q').1 (cinsert d n q').2 e n q' := by
  by_cases hn : n + 1 ≥ DICT_SIZE
  · have hn511 : n = 511 := by
      have := hDP.mhi
      rw [DICT_SIZE_eq] at hn
      omega
    simp only [cinsert, if_pos hn]
    subst hn511
    exact Off.reset e q' hDP
  · simp only [cinsert, if_neg hn]
    have hle : n ≤ 510 := by
      rw [DICT_SIZE_eq] at hn
      omega
    exact Off.push d e n q' hle hDP hCL hlen

/-- Taking one element of an append from a non-empty list. -/
theorem take_one_append {s t : List Nat} (h : s ≠ []) :
    (s ++ t).take 1 = s.take 1 := by
  cases s with
  | nil => exact absurd rfl h
  | cons a l => simp

/-- A phrase equal to the previous phrase extended by its own first byte
starts with the first byte of the previous phrase. -/
theorem take_one_fix {prev s : List Nat} (hprev : prev ≠ []) (hs : s ≠ [])
    (heq : s = prev ++ s.take 1) : prev.take 1 = s.take 1 := by
  cases prev with
  | nil => exact absurd rfl hprev
  | cons a pr =>
    cases s with
    | nil => exact absurd rfl hs
    | cons x xs =>
      have hx : x = a := by
        have hh := congrArg List.head? heq
        simpa using hh
      simp [hx]

/-- Core resolution lemma: when the compressor, in a state `Off`-related to
the decompressor state, emits the code bound to its current phrase `s`, the
decompressor resolves that code to exactly `s` (through a plain hit, the
identity entries, or the self-referential reconstruction), and the emitted
code is a well-formed symbol. -/
theorem resolve_of_off {d : CDict} {n : Nat} {e : DDict} {m : Nat}
    {prev s : List Nat} {code : JSym}
    (h : Off d n e m (prev ++ s.take 1)) (hprev : prev ≠ []) (hs : s ≠ [])
    (hcode : alookup d s = some code) :
    resolveData e m prev (some (prev.take 1)) code = .ok s ∧ JSymOk code := by
  generalize hqs : prev ++ s.take 1 = qstar at h
  induction h with
  | push d0 e m q hm hDP hCL hq =>
    rw [alookup_cons] at hcode
    by_cases hqs2 : q = s
    · rw [if_pos hqs2] at hcode
      have hcm : code = JSym.num m := by
        injection hcode with hcode
        exact hcode.symm
      subst hcm
      have hnone : alookup e (JSym.num m) = none := hDP.numhi m le_rfl
      constructor
      · simp only [resolveData, hnone, resolveFallback, if_pos rfl]
        have hs_eq : s = prev ++ s.take 1 := by rw [hqs, hqs2]
        have ht := take_one_fix hprev hs hs_eq
        rw [ht, ← hs_eq]
        simp
      · exact ⟨hDP.mlo, by omega⟩
    · rw [if_neg hqs2] at hcode
      cases code with
      | chr b =>
        obtain ⟨hsb, hb⟩ := hCL.chr s b hcode
        constructor
        · simp only [resolveData, hDP.chr b hb]
          rw [hsb]
          simp
        · exact hb
      | num k =>
        obtain ⟨hk1, hk2, hk3⟩ := hCL.num s k hcode
        constructor
        · simp only [resolveData, hk3]
          simp [hs]
        · exact ⟨hk1, by have := hDP.mhi; omega⟩
      | undef => exact absurd hcode (hCL.nundef s)
  | reset e q hDP =>
    obtain ⟨b, hb, hsb, hcv⟩ := alookup_initC_some hcode
    subst hcv
    constructor
    · simp only [resolveData, hDP.chr b hb]
      rw [hsb]
      simp
    · exact hb

/-- Main simulation lemma.  If the compressor state `(d, n)` scanning current
phrase `s` is `Off`-related to the decompressor state `(e, m)` whose last
emitted phrase is `prev`, then feeding the remaining compressor output to the
decompressor loop reproduces exactly `s ++ cs`, the observed `dictLen` traces
agree (the decompressor performs one pending insertion first), and every
emitted code is well formed. -/
theorem sim_main (cs : List Nat) :
    ∀ (d : CDict) (n : Nat) (e : DDict) (m : Nat) (prev s : List Nat),
    Off d n e m (prev ++ s.take 1) → prev ≠ [] → s ≠ [] →
    (∀ x ∈ cs, x < 256) →
    (alookup d s).isSome →
    dzwLoop e m prev (some (prev.take 1)) (lzwLoop d n s cs) = .ok (s ++ cs)
    ∧ dzwLoopTrace e m prev (some (prev.take 1)) (lzwLoop d n s cs)
        = n :: lzwLoopTrace d n s cs
    ∧ ∀ c ∈ lzwLoop d n s cs, JSymOk c := by
  induction cs with
  | nil =>
    intro d n e m prev s hOff hprev hs _ hsk
    obtain ⟨code, hcode⟩ := Option.isSome_iff_exists.mp hsk
    obtain ⟨hres, hok⟩ := resolve_of_off hOff hprev hs hcode
    obtain ⟨hDP', hCL', hn⟩ := off_step hOff
    have hloop : lzwLoop d n s [] = [code] := by
      simp [lzwLoop, hs, hcode]
    refine ⟨?_, ?_, ?_⟩
    · rw [hloop]
      simp only [dzwLoop, hres]
    · rw [hloop]
      simp only [dzwLoopTrace, hres, lzwLoopTrace]
      rw [hn]
    · intro c hc
      rw [hloop] at hc
      simp only [List.mem_singleton] at hc
      subst hc
      exact hok
  | cons c cs' ih =>
    intro d n e m prev s hOff hprev hs hbytes hsk
    have hb : c < 256 := hbytes c (by simp)
    have hbytes' : ∀ x ∈ cs', x < 256 := fun x hx => hbytes x (by simp [hx])
    by_cases hmatch : (alookup d (s ++ [c])).isSome
    · have hOff' : Off d n e m (prev ++ (s ++ [c]).take 1) := by
        rw [take_one_append hs]
        exact hOff
      have hs' : s ++ [c] ≠ [] := by simp
      obtain ⟨h1, h2, h3⟩ := ih d n e m prev (s ++ [c]) hOff' hprev hs' hbytes' hmatch
      have hloop : lzwLoop d n s (c :: cs') = lzwLoop d n (s ++ [c]) cs' := by
        simp [lzwLoop, hmatch]
      have htr : lzwLoopTrace d n s (c :: cs') = lzwLoopTrace d n (s ++ [c]) cs' := by
        simp [lzwLoopTrace, hmatch]
      refine ⟨?_, ?_, ?_⟩
      · rw [hloop, h1]
        simp
      · rw [hloop, htr, h2]
      · intro x hx
        rw [hloop] at hx
        exact h3 x hx
    · obtain ⟨code, hcode⟩ := Option.isSome_iff_exists.mp hsk
      obtain ⟨hres, hok⟩ := resolve_of_off hOff hprev hs hcode
      obtain ⟨hDP', hCL', hn⟩ := off_step hOff
      rw [hn] at hDP' hCL'
      have hlen : 2 ≤ (s ++ [c]).length := by
        cases s with
        | nil => exact absurd rfl hs
        | cons a l => simp
      have hOffN : Off (cinsert d n (s ++ [c])).1 (cinsert d n (s ++ [c])).2
          (dinsert e m (prev ++ s.take 1)).1 n (s ++ [c]) :=
        off_next hDP' hCL' hlen
      have hOffN' : Off (cinsert d n (s ++ [c])).1 (cinsert d n (s ++ [c])).2
          (dinsert e m (prev ++ s.take 1)).1 n (s ++ ([c] : List Nat).take 1) := by
        simpa using hOffN
      have hsingle : (alookup (cinsert d n (s ++ [c])).1 [c]).isSome := by
        rw [hOffN.sing_lookup hb]
        rfl
      obtain ⟨h1, h2, h3⟩ := ih (cinsert d n (s ++ [c])).1 (cinsert d n (s ++ [c])).2
        (dinsert e m (prev ++ s.take 1)).1 n s [c] hOffN' hs (by simp) hbytes' hsingle
      have hloop : lzwLoop d n s (c :: cs') =
          code :: lzwLoop (cinsert d n (s ++ [c])).1 (cinsert d n (s ++ [c])).2 [c] cs' := by
        simp [lzwLoop, hmatch, hcode]
      have htr : lzwLoopTrace d n s (c :: cs') =
          (cinsert d n (s ++ [c])).2 ::
            lzwLoopTrace (cinsert d n (s ++ [c])).1 (cinsert d n (s ++ [c])).2 [c] cs' := by
        simp [lzwLoopTrace, hmatch]
      refine ⟨?_, ?_, ?_⟩
      · rw [hloop]
        simp only [dzwLoop, hres]
        rw [hn, h1]
        simp
      · rw [hloop]
        simp only [dzwLoopTrace, hres]
        rw [hn, h2, htr]
      · intro x hx
        rw [hloop] at hx
        simp only [List.mem_cons] at hx
        cases hx with
        | inl hx => subst hx; exact hok
        | inr hx => exact h3 x hx

/-- Top-level correctness of the dictionary coder: on any byte sequence the
decompressor inverts the compressor, the observed `dictLen` traces agree, and
every emitted code is well formed. -/
theorem lzw_main (B : List Nat) (hB : ∀ x ∈ B, x < 256) :
    lzwDecompress (lzwCompress B) = .ok B
    ∧ lzwDecompressDictLens (lzwCompress B) = lzwCompressDictLens B
    ∧ ∀ c ∈ lzwCompress B, JSymOk c := by
  match B with
  | [] =>
    refine ⟨rfl, rfl, ?_⟩
    intro c hc
    simp [lzwCompress, lzwLoop] at hc
  | [b] =>
    have hb : b < 256 := hB b (by simp)
    have h1 : alookup initC [b] = some (JSym.chr b) := alookup_initC_sing hb
    have hcomp : lzwCompress [b] = [JSym.chr b] := by
      simp [lzwCompress, lzwLoop, h1]
    refine ⟨?_, ?_, ?_⟩
    · rw [hcomp]
      simp [lzwDecompress, dzwLoop, JSym.toStr, JSym.outStr]
    · rw [hcomp]
      simp [lzwDecompressDictLens, dzwLoopTrace, lzwCompressDictLens,
        lzwLoopTrace, h1]
    · rw [hcomp]
      intro c hc
      simp only [List.mem_singleton] at hc
      subst hc
      exact hb
  | b :: c :: cs =>
    have hb : b < 256 := hB b (by simp)
    have hc : c < 256 := hB c (by simp)
    have hcs : ∀ x ∈ cs, x < 256 := fun x hx => hB x (by simp [hx])
    have h1 : alookup initC [b] = some (JSym.chr b) := alookup_initC_sing hb
    have h2 : alookup initC [b, c] = none :=
      alookup_initC_len2 (by simp)
    have hOff0 : Off (cinsert initC 256 [b, c]).1 (cinsert initC 256 [b, c]).2
        initD 256 [b, c] :=
      off_next DP_initD CL_initC_initD (by simp)
    have hOff : Off (cinsert initC 256 [b, c]).1 (cinsert initC 256 [b, c]).2
        initD 256 ([b] ++ ([c] : List Nat).take 1) := by
      simpa using hOff0
    have hsingle : (alookup (cinsert initC 256 [b, c]).1 [c]).isSome := by
      rw [hOff0.sing_lookup hc]
      rfl
    obtain ⟨h1d, h2d, h3d⟩ := sim_main cs (cinsert initC 256 [b, c]).1
      (cinsert initC 256 [b, c]).2 initD 256 [b] [c] hOff (by simp) (by simp)
      hcs hsingle
    simp only [List.take_succ_cons, List.take_zero] at h1d h2d
    have hcomp : lzwCompress (b :: c :: cs) =
        JSym.chr b :: lzwLoop (cinsert initC 256 [b, c]).1
          (cinsert initC 256 [b, c]).2 [c] cs := by
      simp [lzwCompress, lzwLoop, h1, h2]
    have hcompT : lzwCompressDictLens (b :: c :: cs) =
        (cinsert initC 256 [b, c]).2 ::
          lzwLoopTrace (cinsert initC 256 [b, c]).1
            (cinsert initC 256 [b, c]).2 [c] cs := by
      simp [lzwCompressDictLens, lzwLoopTrace, h1, h2]
    refine ⟨?_, ?_, ?_⟩
    · rw [hcomp]
      simp only [lzwDecompress, JSym.toStr, JSym.firstStr]
      rw [h1d]
      simp [JSym.outStr]
    · rw [hcomp, hcompT]
      simp only [lzwDecompressDictLens, JSym.toStr, JSym.firstStr]
      rw [h2d]
    · rw [hcomp]
      intro x hx
      simp only [List.mem_cons] at hx
      cases hx with
      | inl hx => subst hx; exact hb
      | inr hx => exact h3d x hx

/-! ### Bit packing lemmas -/

/-- MSB-first fixed-width bit string of a value: the padded string built by
lines 104-109 of the source. -/
def toBits (w v : Nat) : List Nat :=
  List.replicate (w - (bitsLE v).length) 0 ++ (bitsLE v).reverse

/-- The fuel used by `bitsLEF` is irrelevant once it covers the value. -/
theorem bitsLEF_congr : ∀ f f' v, v ≤ f → v ≤ f' → bitsLEF f v = bitsLEF f' v := by
  intro f
  induction f with
  | zero =>
    intro f' v hf _
    have hv : v = 0 := by omega
    subst hv
    cases f' <;> simp [bitsLEF]
  | succ f ih =>
    intro f' v hf hf'
    cases v with
    | zero => cases f' <;> simp [bitsLEF]
    | succ w =>
      cases f' with
      | zero => omega
      | succ f'' =>
        simp only [bitsLEF]
        congr 1
        exact ih f'' ((w + 1) / 2) (by omega) (by omega)

/-- The binary digits of zero. -/
theorem bitsLE_zero : bitsLE 0 = [] := rfl

/-- Unfolding of `bitsLE` on a positive value. -/
theorem bitsLE_succ (v : Nat) (h : 0 < v) :
    bitsLE v = v % 2 :: bitsLE (v / 2) := by
  cases v with
  | zero => omega
  | succ w =>
    show bitsLEF (w + 1) (w + 1) = (w + 1) % 2 :: bitsLE ((w + 1) / 2)
    simp only [bitsLEF]
    congr 1
    exact bitsLEF_congr w ((w + 1) / 2) ((w + 1) / 2) (by omega) le_rfl

/-- A value below `2 ^ w` has at most `w` binary digits. -/
theorem bitsLE_length_le {v w : Nat} (h : v < 2 ^ w) :
    (bitsLE v).length ≤ w := by
  induction w generalizing v with
  | zero =>
    have : v = 0 := by simpa using h
    subst this
    simp [bitsLE_zero]
  | succ w ih =>
    rcases Nat.eq_zero_or_pos v with hv | hv
    · subst hv; simp [bitsLE_zero]
    · rw [bitsLE_succ v hv]
      have hdiv : v / 2 < 2 ^ w := by
        have h2 : (2:Nat) ^ (w + 1) = 2 ^ w * 2 := by ring
        rw [h2] at h
        omega
      have := ih hdiv
      simp
      omega

/-- A value with at most `w` binary digits is below `2 ^ w`. -/
theorem lt_of_bitsLE_length_le : ∀ v w, (bitsLE v).length ≤ w → v < 2 ^ w := by
  intro v
  induction v using Nat.strong_induction_on with
  | _ v ih =>
    intro w h
    rcases Nat.eq_zero_or_pos v with hv | hv
    · subst hv; exact Nat.pos_pow_of_pos w (by norm_num)
    · rw [bitsLE_succ v hv] at h
      simp only [List.length_cons] at h
      cases w with
      | zero => omega
      | succ w' =>
        have h2 : v / 2 < 2 ^ w' :=
          ih (v / 2) (Nat.div_lt_self hv (by norm_num)) w' (by omega)
        have h3 : (2:Nat) ^ (w' + 1) = 2 * 2 ^ w' := by ring
        omega

/-- Every binary digit is at most one. -/
theorem bitsLE_le_one : ∀ v, ∀ x ∈ bitsLE v, x ≤ 1 := by
  intro v
  induction v using Nat.strong_induction_on with
  | _ v ih =>
    intro x hx
    rcases Nat.eq_zero_or_pos v with hv | hv
    · subst hv; simp [bitsLE_zero] at hx
    · rw [bitsLE_succ v hv] at hx
      simp only [List.mem_cons] at hx
      cases hx with
      | inl hx => subst hx; omega
      | inr hx => exact ih (v / 2) (Nat.div_lt_self hv (by norm_num)) x hx

/-- The bit string `toBits` consists of bits. -/
theorem toBits_le_one {w v : Nat} : ∀ x ∈ toBits w v, x ≤ 1 := by
  intro x hx
  simp only [toBits, List.mem_append, List.mem_replicate, List.mem_reverse] at hx
  cases hx with
  | inl hx => omega
  | inr hx => exact bitsLE_le_one v x hx

/-- Length of the padded bit string of a fitting value. -/
theorem toBits_length {w v : Nat} (h : v < 2 ^ w) :
    (toBits w v).length = w := by
  have := bitsLE_length_le h
  simp [toBits]
  omega

/-- A successful unit encoding is exactly the padded bit string. -/
theorem encodeUnit_eq_some {w v : Nat} (h : v < 2 ^ w) :
    encodeUnit w v = some (toBits w v) := by
  have := bitsLE_length_le h
  simp [encodeUnit, toBits, this]

/-- An oversized value makes the unit encoding fail. -/
theorem encodeUnit_eq_none {w v : Nat} (h : 2 ^ w ≤ v) :
    encodeUnit w v = none := by
  cases he : encodeUnit w v with
  | none => rfl
  | some u =>
    simp only [encodeUnit] at he
    by_cases hl : (bitsLE v).length ≤ w
    · have := lt_of_bitsLE_length_le v w hl
      omega
    · simp [hl] at he

/-- Evaluation step of `fromBits` on an appended bit. -/
theorem fromBits_append_one (l : List Nat) (x : Nat) :
    fromBits (l ++ [x]) = 2 * fromBits l + (if x = 1 then 1 else 0) := by
  simp [fromBits, List.foldl_append]

/-- Leading zeros do not change the value of a bit string. -/
theorem fromBits_replicate_zero (k : Nat) (l : List Nat) :
    fromBits (List.replicate k 0 ++ l) = fromBits l := by
  induction k with
  | zero => simp
  | succ k ih =>
    rw [List.replicate_succ]
    simpa [fromBits] using ih

/-- Reading back the binary digits of a value. -/
theorem fromBits_reverse_bitsLE : ∀ v, fromBits (bitsLE v).reverse = v := by
  intro v
  induction v using Nat.strong_induction_on with
  | _ v ih =>
    rcases Nat.eq_zero_or_pos v with hv | hv
    · subst hv; simp [bitsLE_zero, fromBits]
    · rw [bitsLE_succ v hv]
      simp only [List.reverse_cons]
      rw [fromBits_append_one, ih (v / 2) (Nat.div_lt_self hv (by norm_num))]
      have := Nat.mod_two_eq_zero_or_one v
      rcases this with h2 | h2 <;> rw [h2] <;> simp <;> omega

/-- Round trip from a value through its bit string. -/
theorem fromBits_toBits {w v : Nat} :
    fromBits (toBits w v) = v := by
  rw [toBits, fromBits_replicate_zero, fromBits_reverse_bitsLE]

/-- Step of `toBits` peeling the lowest-order bit. -/
theorem toBits_succ (w v : Nat) :
    toBits (w + 1) v = toBits w (v / 2) ++ [v % 2] := by
  rcases Nat.eq_zero_or_pos v with hv | hv
  · subst hv
    simp [toBits, bitsLE_zero, List.replicate_succ']
  · rw [toBits, toBits, bitsLE_succ v hv]
    simp only [List.reverse_cons, List.length_cons]
    rw [← List.append_assoc]
    have heq : w + 1 - ((bitsLE (v / 2)).length + 1) = w - (bitsLE (v / 2)).length := by
      omega
    rw [heq]

/-- A list of bits is recovered from its value. -/
theorem toBits_fromBits : ∀ l : List Nat, (∀ x ∈ l, x ≤ 1) →
    toBits l.length (fromBits l) = l := by
  intro l
  induction l using List.reverseRecOn with
  | nil => intro _; rfl
  | append_singleton l x ih =>
    intro hl
    have hx : x ≤ 1 := hl x (by simp)
    have hl' : ∀ y ∈ l, y ≤ 1 := fun y hy => hl y (by simp [hy])
    rw [fromBits_append_one]
    have hlen : (l ++ [x]).length = l.length + 1 := by simp
    rw [hlen, toBits_succ]
    have hdiv : (2 * fromBits l + (if x = 1 then 1 else 0)) / 2 = fromBits l := by
      rcases Nat.le_one_iff_eq_zero_or_eq_one.mp hx with h | h <;> subst h <;> simp <;> omega
    have hmod : (2 * fromBits l + (if x = 1 then 1 else 0)) % 2 = x := by
      rcases Nat.le_one_iff_eq_zero_or_eq_one.mp hx with h | h <;> subst h <;> simp [Nat.add_mul_mod_self_left] <;> omega
    rw [hdiv, hmod, ih hl']

/-- The value of a bit string fits in its length. -/
theorem fromBits_lt : ∀ l : List Nat, (∀ x ∈ l, x ≤ 1) →
    fromBits l < 2 ^ l.length := by
  intro l
  induction l using List.reverseRecOn with
  | nil => intro _; simp [fromBits]
  | append_singleton l x ih =>
    intro hl
    have hx : x ≤ 1 := hl x (by simp)
    have hl' : ∀ y ∈ l, y ≤ 1 := fun y hy => hl y (by simp [hy])
    rw [fromBits_append_one]
    have h1 := ih hl'
    have h2 : (2:Nat) ^ (l ++ [x]).length = 2 * 2 ^ l.length := by
      simp [List.length_append]
      ring
    rw [h2]
    rcases Nat.le_one_iff_eq_zero_or_eq_one.mp hx with h | h <;> subst h <;> simp <;> omega

/-- Concatenated fixed-width bit strings of a list of values (specification
shape of the packing direction). -/
def packBits (a : Nat) (vals : List Nat) : List Nat :=
  (vals.map (toBits a)).flatten

/-- Encoding a list of fitting values yields their bit strings. -/
theorem encodeAll_eq_some {a : Nat} :
    ∀ {xs : List Nat}, (∀ v ∈ xs, v < 2 ^ a) →
    encodeAll a xs = some (xs.map (toBits a)) := by
  intro xs
  induction xs with
  | nil => intro _; rfl
  | cons x xs ih =>
    intro h
    have hx : x < 2 ^ a := h x (by simp)
    have hxs : ∀ v ∈ xs, v < 2 ^ a := fun v hv => h v (by simp [hv])
    simp [encodeAll, encodeUnit_eq_some hx, ih hxs]

/-- The transcoder on fitting values: encode all units, then re-slice. -/
theorem convert_eq_some {a b : Nat} {d : Bool} {xs : List Nat}
    (h : ∀ v ∈ xs, v < 2 ^ a) :
    convertEncodingArrayUnitLength xs a b d = some (reslice b d (packBits a xs)) := by
  simp [convertEncodingArrayUnitLength, encodeAll_eq_some h, packBits]

/-- The fuel used by `resliceF` is irrelevant once it covers the list. -/
theorem resliceF_congr {b : Nat} (hb : 1 ≤ b) (d : Bool) :
    ∀ f f' (bits : List Nat), bits.length ≤ f → bits.length ≤ f' →
    resliceF b d f bits = resliceF b d f' bits := by
  intro f
  induction f with
  | zero =>
    intro f' bits h _
    have : bits = [] := by
      cases bits with
      | nil => rfl
      | cons x xs => simp at h
    subst this
    cases f' <;> simp [resliceF]
  | succ f ih =>
    intro f' bits h h'
    cases bits with
    | nil => cases f' <;> simp [resliceF]
    | cons x xs =>
      cases f' with
      | zero => simp at h'
      | succ f'' =>
        simp only [resliceF]
        split
        · rfl
        · congr 1
          apply ih
          · simp only [List.length_drop, List.length_cons]
            simp only [List.length_cons] at h
            omega
          · simp only [List.length_drop, List.length_cons]
            simp only [List.length_cons] at h'
            omega

/-- Unfolding of `reslice` on a non-empty bit string. -/
theorem reslice_cons {b : Nat} (hb : 1 ≤ b) {bits : List Nat}
    (hne : bits ≠ []) (d : Bool) :
    reslice b d bits = if d ∧ bits.length < b then []
      else chunkVal b (bits.take b) :: reslice b d (bits.drop b) := by
  cases bits with
  | nil => exact absurd rfl hne
  | cons x xs =>
    show resliceF b d (xs.length + 1) (x :: xs) = _
    simp only [resliceF]
    split
    · rfl
    · congr 1
      show resliceF b d xs.length ((x :: xs).drop b) = reslice b d ((x :: xs).drop b)
      apply resliceF_congr hb
      · simp only [List.length_drop, List.length_cons]
        omega
      · exact le_rfl

/-- Re-slicing the concatenation of fitting fixed-width strings with the
same width recovers the values (no discarding occurs). -/
theorem reslice_packBits {a : Nat} (ha : 1 ≤ a) :
    ∀ (codes : List Nat), (∀ v ∈ codes, v < 2 ^ a) →
    reslice a false (packBits a codes) = codes := by
  intro codes
  induction codes with
  | nil => intro _; rfl
  | cons v vs ih =>
    intro h
    have hv : v < 2 ^ a := h v (by simp)
    have hvs : ∀ x ∈ vs, x < 2 ^ a := fun x hx => h x (by simp [hx])
    have hlen : (toBits a v).length = a := toBits_length hv
    have hpb : packBits a (v :: vs) = toBits a v ++ packBits a vs := by
      simp [packBits]
    have hne : packBits a (v :: vs) ≠ [] := by
      rw [hpb]
      intro hcon
      have := congrArg List.length hcon
      simp [hlen] at this
      omega
    rw [reslice_cons ha hne false]
    rw [if_neg (by simp)]
    rw [hpb]
    have htake : (toBits a v ++ packBits a vs).take a = toBits a v := by
      have ht := List.take_left (toBits a v) (packBits a vs)
      rwa [hlen] at ht
    have hdrop : (toBits a v ++ packBits a vs).drop a = packBits a vs := by
      have hd := List.drop_left (toBits a v) (packBits a vs)
      rwa [hlen] at hd
    rw [htake, hdrop, ih hvs]
    congr 1
    simp only [chunkVal, hlen, Nat.sub_self, List.replicate_zero, List.append_nil]
    exact fromBits_toBits

/-- Unpacking what was packed with the non-discarding flag: the concatenated
width-`b` bit strings of the produced groups are the original bit string plus
right zero padding up to the next multiple of `b`, and every group value fits
in `b` bits. -/
theorem unpack_reslice_false {b : Nat} (hb : 1 ≤ b) :
    ∀ (L : Nat) (bits : List Nat), bits.length ≤ L → (∀ x ∈ bits, x ≤ 1) →
    ((reslice b false bits).map (toBits b)).flatten
        = bits ++ List.replicate ((b - bits.length % b) % b) 0
    ∧ ∀ v ∈ reslice b false bits, v < 2 ^ b := by
  intro L
  induction L with
  | zero =>
    intro bits hL _
    have : bits = [] := by
      cases bits with
      | nil => rfl
      | cons x xs => simp at hL
    subst this
    simp [reslice, resliceF, Nat.mod_self]
  | succ L ih =>
    intro bits hL hbits
    cases hbe : bits with
    | nil => simp [reslice, resliceF, Nat.mod_self]
    | cons x xs =>
      rw [← hbe]
      have hne : bits ≠ [] := by rw [hbe]; simp
      have hpos : 1 ≤ bits.length := by rw [hbe]; simp
      rw [reslice_cons hb hne false, if_neg (by simp)]
      by_cases hble : b ≤ bits.length
      · have htl : (bits.take b).length = b := by
          simp [List.length_take]
          omega
        have hcv : chunkVal b (bits.take b) = fromBits (bits.take b) := by
          simp [chunkVal, htl]
        have htb : ∀ y ∈ bits.take b, y ≤ 1 :=
          fun y hy => hbits y (List.take_subset b bits hy)
        have hdb : ∀ y ∈ bits.drop b, y ≤ 1 :=
          fun y hy => hbits y (List.drop_subset b bits hy)
        have hdl : (bits.drop b).length ≤ L := by
          simp [List.length_drop]
          rw [hbe] at hL ⊢
          simp at hL ⊢
          omega
        obtain ⟨ih1, ih2⟩ := ih (bits.drop b) hdl hdb
        have hmod : (bits.drop b).length % b = bits.length % b := by
          simp only [List.length_drop]
          conv_rhs => rw [← Nat.sub_add_cancel hble]
          rw [Nat.add_mod_right]
        constructor
        · simp only [List.map_cons, List.flatten_cons, hcv]
          have : toBits b (fromBits (bits.take b)) = bits.take b := by
            have h0 := toBits_fromBits (bits.take b) htb
            rwa [htl] at h0
          rw [this, ih1, hmod, ← List.append_assoc, List.take_append_drop]
        · intro v hv
          simp only [List.mem_cons] at hv
          cases hv with
          | inl hv =>
            subst hv
            rw [hcv]
            have h0 := fromBits_lt (bits.take b) htb
            rwa [htl] at h0
          | inr hv => exact ih2 v hv
      · push_neg at hble
        have htk : bits.take b = bits := List.take_of_length_le (by omega)
        have hdr : bits.drop b = [] := List.drop_eq_nil_of_le (by omega)
        have hpl : (bits ++ List.replicate (b - bits.length) 0).length = b := by
          simp
          omega
        have hpb : ∀ y ∈ bits ++ List.replicate (b - bits.length) 0, y ≤ 1 := by
          intro y hy
          simp only [List.mem_append, List.mem_replicate] at hy
          cases hy with
          | inl hy => exact hbits y hy
          | inr hy => omega
        have hcv : toBits b (chunkVal b bits)
            = bits ++ List.replicate (b - bits.length) 0 := by
          have h0 := toBits_fromBits (bits ++ List.replicate (b - bits.length) 0) hpb
          rw [hpl] at h0
          exact h0
        have hmod : (b - bits.length % b) % b = b - bits.length := by
          rw [Nat.mod_eq_of_lt hble, Nat.mod_eq_of_lt (by omega)]
        constructor
        · rw [htk, hdr]
          simp only [reslice, resliceF, List.map_cons, List.map_nil,
            List.flatten_cons, List.flatten_nil, List.append_nil]
          rw [hcv, hmod]
        · intro v hv
          rw [htk, hdr] at hv
          simp only [reslice, resliceF, List.mem_singleton] at hv
          subst hv
          rw [chunkVal]
          have h0 := fromBits_lt (bits ++ List.replicate (b - bits.length) 0) hpb
          rwa [hpl] at h0

/-- Re-slicing with the discarding flag drops a short zero tail and recovers
the packed values. -/
theorem reslice_discard_pad {a : Nat} (ha : 1 ≤ a) :
    ∀ (codes : List Nat) (p : Nat), p < a → (∀ v ∈ codes, v < 2 ^ a) →
    reslice a true (packBits a codes ++ List.replicate p 0) = codes := by
  intro codes
  induction codes with
  | nil =>
    intro p hp _
    simp only [packBits, List.map_nil, List.flatten_nil, List.nil_append]
    cases p with
    | zero => rfl
    | succ p0 =>
      rw [reslice_cons ha (by simp) true, if_pos (by simp; omega)]
  | cons v vs ih =>
    intro p hp h
    have hv : v < 2 ^ a := h v (by simp)
    have hvs : ∀ x ∈ vs, x < 2 ^ a := fun x hx => h x (by simp [hx])
    have hlen : (toBits a v).length = a := toBits_length hv
    have hsplit : packBits a (v :: vs) ++ List.replicate p 0
        = toBits a v ++ (packBits a vs ++ List.replicate p 0) := by
      simp [packBits]
    rw [hsplit]
    have hpne : toBits a v ++ (packBits a vs ++ List.replicate p 0) ≠ [] := by
      intro hcon
      have := congrArg List.length hcon
      simp [hlen] at this
      omega
    rw [reslice_cons ha hpne true, if_neg (by simp [hlen])]
    have htake : (toBits a v ++ (packBits a vs ++ List.replicate p 0)).take a
        = toBits a v := by
      have ht := List.take_left (toBits a v) (packBits a vs ++ List.replicate p 0)
      rwa [hlen] at ht
    have hdrop : (toBits a v ++ (packBits a vs ++ List.replicate p 0)).drop a
        = packBits a vs ++ List.replicate p 0 := by
      have hd := List.drop_left (toBits a v) (packBits a vs ++ List.replicate p 0)
      rwa [hlen] at hd
    rw [htake, hdrop, ih p hp hvs]
    congr 1
    simp only [chunkVal, hlen, Nat.sub_self, List.replicate_zero, List.append_nil]
    exact fromBits_toBits

/-- The packed bit string of fitting values has length width times count. -/
theorem packBits_length {a : Nat} : ∀ {vals : List Nat},
    (∀ v ∈ vals, v < 2 ^ a) → (packBits a vals).length = a * vals.length := by
  intro vals
  induction vals with
  | nil => intro _; simp [packBits]
  | cons v vs ih =>
    intro h
    have hv : v < 2 ^ a := h v (by simp)
    have hvs : ∀ x ∈ vs, x < 2 ^ a := fun x hx => h x (by simp [hx])
    have : packBits a (v :: vs) = toBits a v ++ packBits a vs := by
      simp [packBits]
    rw [this]
    simp [toBits_length hv, ih hvs]
    ring

/-- The packed bit string consists of bits. -/
theorem packBits_le_one {a : Nat} {vals : List Nat} :
    ∀ x ∈ packBits a vals, x ≤ 1 := by
  intro x hx
  simp only [packBits, List.mem_flatten, List.mem_map] at hx
  obtain ⟨l, ⟨v, _, hl⟩, hxl⟩ := hx
  subst hl
  exact toBits_le_one x hxl

/-- When the length is a multiple of the width, the discard flag makes no
difference: every group is complete. -/
theorem reslice_true_of_dvd {b : Nat} (hb : 1 ≤ b) :
    ∀ (L : Nat) (bits : List Nat), bits.length ≤ L → b ∣ bits.length →
    reslice b true bits = reslice b false bits := by
  intro L
  induction L with
  | zero =>
    intro bits hL _
    have : bits = [] := by
      cases bits with
      | nil => rfl
      | cons x xs => simp at hL
    subst this
    rfl
  | succ L ih =>
    intro bits hL hdvd
    cases hbe : bits with
    | nil => rfl
    | cons x xs =>
      rw [← hbe]
      have hne : bits ≠ [] := by rw [hbe]; simp
      have hpos : 0 < bits.length := by rw [hbe]; simp
      have hble : b ≤ bits.length := Nat.le_of_dvd hpos hdvd
      rw [reslice_cons hb hne true, reslice_cons hb hne false,
        if_neg (fun hcon => absurd hcon.2 (by omega)), if_neg (by simp)]
      congr 1
      apply ih
      · simp only [List.length_drop]
        rw [hbe] at hL ⊢
        simp at hL ⊢
        omega
      · simp only [List.length_drop]
        exact Nat.dvd_sub' hdvd dvd_rfl

/-- Group count produced without discarding: length divided by width, rounded
up. -/
theorem reslice_length_false {b : Nat} (hb : 1 ≤ b) :
    ∀ (L : Nat) (bits : List Nat), bits.length ≤ L →
    (reslice b false bits).length = (bits.length + b - 1) / b := by
  intro L
  induction L with
  | zero =>
    intro bits hL
    have : bits = [] := by
      cases bits with
      | nil => rfl
      | cons x xs => simp at hL
    subst this
    simp [reslice, resliceF, Nat.div_eq_of_lt (by omega : b - 1 < b)]
  | succ L ih =>
    intro bits hL
    cases hbe : bits with
    | nil => simp [reslice, resliceF, Nat.div_eq_of_lt (by omega : b - 1 < b)]
    | cons x xs =>
      rw [← hbe]
      have hne : bits ≠ [] := by rw [hbe]; simp
      have hpos : 1 ≤ bits.length := by rw [hbe]; simp
      rw [reslice_cons hb hne false, if_neg (by simp)]
      have hdl : (bits.drop b).length ≤ L := by
        simp only [List.length_drop]
        rw [hbe] at hL ⊢
        simp at hL ⊢
        omega
      rw [List.length_cons, ih (bits.drop b) hdl]
      simp only [List.length_drop]
      have heq1 : bits.length + b - 1 = (bits.length - 1) + b := by omega
      rw [heq1, Nat.add_div_right _ (by omega : 0 < b)]
      by_cases hble : b ≤ bits.length
      · have heq2 : bits.length - b + b - 1 = bits.length - 1 := by omega
        rw [heq2]
      · have h0 : bits.length - b = 0 := by omega
        rw [h0]
        rw [Nat.div_eq_of_lt (by omega : 0 + b - 1 < b),
          Nat.div_eq_of_lt (by omega : bits.length - 1 < b)]

/-- Group count produced with discarding: length divided by width, rounded
down. -/
theorem reslice_length_true {b : Nat} (hb : 1 ≤ b) :
    ∀ (L : Nat) (bits : List Nat), bits.length ≤ L →
    (reslice b true bits).length = bits.length / b := by
  intro L
  induction L with
  | zero =>
    intro bits hL
    have : bits = [] := by
      cases bits with
      | nil => rfl
      | cons x xs => simp at hL
    subst this
    simp [reslice, resliceF]
  | succ L ih =>
    intro bits hL
    cases hbe : bits with
    | nil => simp [reslice, resliceF]
    | cons x xs =>
      rw [← hbe]
      have hne : bits ≠ [] := by rw [hbe]; simp
      have hpos : 1 ≤ bits.length := by rw [hbe]; simp
      rw [reslice_cons hb hne true]
      have hdl : (bits.drop b).length ≤ L := by
        simp only [List.length_drop]
        rw [hbe] at hL ⊢
        simp at hL ⊢
        omega
      by_cases hble : b ≤ bits.length
      · rw [if_neg (fun hcon => absurd hcon.2 (by omega))]
        rw [List.length_cons, ih (bits.drop b) hdl]
        simp only [List.length_drop]
        conv_rhs => rw [← Nat.sub_add_cancel hble]
        rw [Nat.add_div_right _ (by omega : 0 < b)]
      · rw [if_pos ⟨rfl, by omega⟩]
        rw [Nat.div_eq_of_lt (by omega : bits.length < b)]
        rfl

/-! ### The decode error condition (claim C4) -/

/-- The decimal string of a number is never empty. -/
theorem digitsStr_ne_nil (n : Nat) : digitsStr n ≠ [] := by
  cases n with
  | zero => simp [digitsStr]
  | succ w =>
    simp only [digitsStr, Nat.succ_ne_zero, if_false]
    show decDigitsF (w + 1) (w + 1) ≠ []
    simp [decDigitsF]

/-- The string form of any first symbol is non-empty. -/
theorem toStr_ne_nil (c : JSym) : c.toStr ≠ [] := by
  cases c with
  | chr b => simp [JSym.toStr]
  | num n => exact digitsStr_ne_nil n
  | undef => simp [JSym.toStr, undefinedStr]

/-- The first-character string of any first symbol is not the empty string. -/
theorem firstStr_ne_some_nil (c : JSym) : c.firstStr ≠ some [] := by
  cases c with
  | chr b => simp [JSym.firstStr]
  | num n => simp [JSym.firstStr, undefinedStr]
  | undef => simp [JSym.firstStr]

/-- All values stored in the initial decompression dictionary are non-empty. -/
theorem initD_vals : ∀ (k : JSym) (p : List Nat),
    alookup initD k = some p → p ≠ [] := by
  intro k p h
  cases k with
  | chr b =>
    rw [initD, alookup_initDAux_chr] at h
    by_cases hb : b < 256
    · rw [if_pos hb] at h
      injection h with h
      subst h
      simp
    · rw [if_neg hb] at h
      cases h
  | num n => rw [alookup_initD_num] at h; cases h
  | undef => rw [initD, alookup_initDAux_undef] at h; cases h

/-- A decompressor insertion of a non-empty phrase preserves non-emptiness of
all stored values. -/
theorem dinsert_vals {e : DDict} {m : Nat} {q : List Nat}
    (hvals : ∀ k p, alookup e k = some p → p ≠ []) (hq : q ≠ []) :
    ∀ k p, alookup (dinsert e m q).1 k = some p → p ≠ [] := by
  intro k p h
  by_cases hm : m + 1 ≥ DICT_SIZE
  · simp only [dinsert, if_pos hm] at h
    exact initD_vals k p h
  · simp only [dinsert, if_neg hm] at h
    rw [alookup_cons] at h
    by_cases hk : JSym.num m = k
    · rw [if_pos hk] at h
      injection h with h
      subst h
      exact hq
    · rw [if_neg hk] at h
      exact hvals k p h

/-- A successful resolution produces a non-empty phrase when the previous
phrase is non-empty. -/
theorem resolveData_ok_ne_nil {e : DDict} {m : Nat} {pstr : List Nat}
    {pfirst : Option (List Nat)} {c : JSym} {data : List Nat}
    (hp : pstr ≠ []) (h : resolveData e m pstr pfirst c = .ok data) :
    data ≠ [] := by
  have hfb : resolveFallback m pstr pfirst c = .ok data → data ≠ [] := by
    intro hh
    by_cases hc : c = JSym.num m
    · cases pfirst with
      | none => simp [resolveFallback, hc] at hh
      | some f =>
        simp only [resolveFallback, if_pos hc] at hh
        injection hh with hh
        subst hh
        simp [hp]
    · simp [resolveFallback, hc] at hh
  cases hl : alookup e c with
  | none =>
    simp only [resolveData, hl] at h
    exact hfb h
  | some p =>
    simp only [resolveData, hl] at h
    by_cases hpn : p = []
    · rw [if_pos hpn] at h
      exact hfb h
    · rw [if_neg hpn] at h
      injection h with h
      subst h
      exact hpn

/-- Anatomy of the fatal decode error: it occurs exactly on a key miss with a
code different from the next insertion index. -/
theorem resolveData_error_badly {e : DDict} {m : Nat} {pstr : List Nat}
    {pfirst : Option (List Nat)} {c : JSym}
    (hvals : ∀ k p, alookup e k = some p → p ≠ [])
    (h : resolveData e m pstr pfirst c = .error DErr.badlyCompressed) :
    alookup e c = none ∧ c ≠ JSym.num m := by
  have hfb : resolveFallback m pstr pfirst c = .error DErr.badlyCompressed →
      c ≠ JSym.num m := by
    intro hh hc
    cases pfirst with
    | none => simp [resolveFallback, hc] at hh
    | some f => simp [resolveFallback, hc] at hh
  cases hl : alookup e c with
  | none =>
    simp only [resolveData, hl] at h
    exact ⟨rfl, hfb h⟩
  | some p =>
    simp only [resolveData, hl] at h
    have hpn : p ≠ [] := hvals c p hl
    rw [if_neg hpn] at h
    cases h

/-- Conversely, a key miss with a code different from the next insertion index
forces the fatal decode error. -/
theorem resolveData_of_conditions {e : DDict} {m : Nat} {pstr : List Nat}
    {pfirst : Option (List Nat)} {c : JSym}
    (h1 : alookup e c = none) (h2 : c ≠ JSym.num m) :
    resolveData e m pstr pfirst c = .error DErr.badlyCompressed := by
  simp only [resolveData, h1, resolveFallback, if_neg h2]

/-- Specification-level description of a failing decode run: starting from the
given state, the loop eventually meets a symbol that is neither a key of the
current dictionary nor equal to the current `dictLen`. -/
inductive BadRun : DDict → Nat → List Nat → Option (List Nat) → List JSym → Prop
  | hit (e : DDict) (m : Nat) (pstr : List Nat) (pfirst : Option (List Nat))
      (c : JSym) (cs : List JSym) :
      alookup e c = none → c ≠ JSym.num m →
      BadRun e m pstr pfirst (c :: cs)
  | cont (e : DDict) (m : Nat) (pstr : List Nat) (pfirst : Option (List Nat))
      (c : JSym) (cs : List JSym) (data : List Nat) :
      resolveData e m pstr pfirst c = .ok data →
      BadRun (dinsert e m (pstr ++ data.take 1)).1
        (dinsert e m (pstr ++ data.take 1)).2 data (some (data.take 1)) cs →
      BadRun e m pstr pfirst (c :: cs)

/-- The decompressor loop fails with the fatal decode error exactly when the
run meets a bad symbol. -/
theorem dzw_error_iff : ∀ (codes : List JSym) (e : DDict) (m : Nat)
    (pstr : List Nat) (pfirst : Option (List Nat)),
    (∀ k p, alookup e k = some p → p ≠ []) → pstr ≠ [] →
    (dzwLoop e m pstr pfirst codes = .error DErr.badlyCompressed
      ↔ BadRun e m pstr pfirst codes) := by
  intro codes
  induction codes with
  | nil =>
    intro e m pstr pfirst _ _
    constructor
    · intro h
      cases h
    · intro h
      cases h
  | cons c cs ih =>
    intro e m pstr pfirst hvals hp
    cases hres : resolveData e m pstr pfirst c with
    | error err =>
      have hval : dzwLoop e m pstr pfirst (c :: cs) = .error err := by
        simp [dzwLoop, hres]
      constructor
      · intro h
        rw [hval] at h
        injection h with h
        subst h
        obtain ⟨h1, h2⟩ := resolveData_error_badly hvals hres
        exact BadRun.hit e m pstr pfirst c cs h1 h2
      · intro h
        cases h with
        | hit _ _ _ _ _ _ h1 h2 =>
          rw [hval, ← hres, resolveData_of_conditions h1 h2]
        | cont _ _ _ _ _ _ data hok _ =>
          rw [hres] at hok
          cases hok
    | ok data =>
      have hdn : data ≠ [] := resolveData_ok_ne_nil hp hres
      have hvals' : ∀ k p, alookup (dinsert e m (pstr ++ data.take 1)).1 k
          = some p → p ≠ [] :=
        dinsert_vals hvals (by simp [hp])
      have hih := ih (dinsert e m (pstr ++ data.take 1)).1
        (dinsert e m (pstr ++ data.take 1)).2 data (some (data.take 1))
        hvals' hdn
      constructor
      · intro h
        simp only [dzwLoop, hres] at h
        cases hrec : dzwLoop (dinsert e m (pstr ++ data.take 1)).1
            (dinsert e m (pstr ++ data.take 1)).2 data (some (data.take 1)) cs with
        | error err2 =>
          rw [hrec] at h
          injection h with h
          subst h
          exact BadRun.cont e m pstr pfirst c cs data hres (hih.mp hrec)
        | ok rest =>
          rw [hrec] at h
          cases h
      · intro h
        cases h with
        | hit _ _ _ _ _ _ h1 h2 =>
          rw [resolveData_of_conditions h1 h2] at hres
          cases hres
        | cont _ _ _ _ _ _ data2 hok hbad =>
          rw [hres] at hok
          injection hok with hok
          subst hok
          simp only [dzwLoop, hres, hih.mpr hbad]

/-! ### Dictionary size bounds (claim C5) -/

/-- Every `dictLen` value observed by the compressor loop stays within
`[256, DICT_SIZE)`. -/
theorem lzwLoopTrace_bounds : ∀ (cs : List Nat) (d : CDict) (n : Nat)
    (s : List Nat), 256 ≤ n → n ≤ 511 →
    ∀ v ∈ lzwLoopTrace d n s cs, 256 ≤ v ∧ v ≤ 511 := by
  intro cs
  induction cs with
  | nil =>
    intro d n s _ _ v hv
    simp [lzwLoopTrace] at hv
  | cons c cs ih =>
    intro d n s hlo hhi v hv
    simp only [lzwLoopTrace] at hv
    by_cases hm : (alookup d (s ++ [c])).isSome
    · rw [if_pos hm] at hv
      exact ih d n (s ++ [c]) hlo hhi v hv
    · rw [if_neg hm] at hv
      by_cases hn : n + 1 ≥ DICT_SIZE
      · simp only [cinsert, if_pos hn] at hv
        simp only [List.mem_cons] at hv
        cases hv with
        | inl hv => subst hv; omega
        | inr hv => exact ih initC 256 [c] le_rfl (by omega) v hv
      · simp only [cinsert, if_neg hn] at hv
        rw [DICT_SIZE_eq] at hn
        simp only [List.mem_cons] at hv
        cases hv with
        | inl hv => subst hv; omega
        | inr hv =>
          exact ih ((s ++ [c], JSym.num n) :: d) (n + 1) [c] (by omega) (by omega) v hv

/-- Every `dictLen` value observed by the decompressor loop stays within
`[256, DICT_SIZE)`. -/
theorem dzwLoopTrace_bounds : ∀ (codes : List JSym) (e : DDict) (m : Nat)
    (pstr : List Nat) (pfirst : Option (List Nat)), 256 ≤ m → m ≤ 511 →
    ∀ v ∈ dzwLoopTrace e m pstr pfirst codes, 256 ≤ v ∧ v ≤ 511 := by
  intro codes
  induction codes with
  | nil =>
    intro e m pstr pfirst _ _ v hv
    simp [dzwLoopTrace] at hv
  | cons c cs ih =>
    intro e m pstr pfirst hlo hhi v hv
    simp only [dzwLoopTrace] at hv
    cases hres : resolveData e m pstr pfirst c with
    | error err => rw [hres] at hv; simp at hv
    | ok data =>
      rw [hres] at hv
      by_cases hn : m + 1 ≥ DICT_SIZE
      · simp only [dinsert, if_pos hn] at hv
        simp only [List.mem_cons] at hv
        cases hv with
        | inl hv => subst hv; omega
        | inr hv => exact ih initD 256 data (some (data.take 1)) le_rfl (by omega) v hv
      · simp only [dinsert, if_neg hn] at hv
        rw [DICT_SIZE_eq] at hn
        simp only [List.mem_cons] at hv
        cases hv with
        | inl hv => subst hv; omega
        | inr hv =>
          exact ih ((JSym.num m, pstr ++ data.take 1) :: e) (m + 1) data
            (some (data.take 1)) (by omega) (by omega) v hv

/-! ### The prototype chain of the compressor dictionary

The source dictionaries are plain JavaScript objects, so a property read
also consults `Object.prototype`.  This is invisible to the decompressor
(see the module comment) but not to the compressor, whose phrase keys are
arbitrary byte strings: a phrase spelling a prototype property name is
truthy at line 45 without ever having been inserted, and line 48 or 58 then
emits the inherited function itself.  The definitions below embed lines
43-58 with this inheritance, and a decompressor over the resulting output
alphabet, for the claims about the whole program. -/

/-- Byte strings of the `Object.prototype` own property names visible to a
string-keyed read in a standard ES2015+ environment: constructor,
hasOwnProperty, isPrototypeOf, propertyIsEnumerable, toLocaleString,
toString, valueOf, the four accessor-definition methods, and proto
(the latter five spelled with double underscores).  Reading any of them
yields a truthy value (a function, or for the last one an object). -/
def protoKeys : List (List Nat) :=
  [[99, 111, 110, 115, 116, 114, 117, 99, 116, 111, 114],
   [104, 97, 115, 79, 119, 110, 80, 114, 111, 112, 101, 114, 116, 121],
   [105, 115, 80, 114, 111, 116, 111, 116, 121, 112, 101, 79, 102],
   [112, 114, 111, 112, 101, 114, 116, 121, 73, 115, 69, 110, 117, 109,
    101, 114, 97, 98, 108, 101],
   [116, 111, 76, 111, 99, 97, 108, 101, 83, 116, 114, 105, 110, 103],
   [116, 111, 83, 116, 114, 105, 110, 103],
   [118, 97, 108, 117, 101, 79, 102],
   [95, 95, 100, 101, 102, 105, 110, 101, 71, 101, 116, 116, 101, 114, 95, 95],
   [95, 95, 100, 101, 102, 105, 110, 101, 83, 101, 116, 116, 101, 114, 95, 95],
   [95, 95, 108, 111, 111, 107, 117, 112, 71, 101, 116, 116, 101, 114, 95, 95],
   [95, 95, 108, 111, 111, 107, 117, 112, 83, 101, 116, 116, 101, 114, 95, 95],
   [95, 95, 112, 114, 111, 116, 111, 95, 95]]

/-- Opaque stand-in for the implementation-defined source string a native
function coerces to in string positions (its leading word).  It is only
ever used as a non-empty string in already-degenerate outputs. -/
def fnStr : List Nat := [102, 117, 110, 99, 116, 105, 111, 110]

/-- Value emitted by the faithful compressor: a proper encoding-array
symbol, or an inherited `Object.prototype` function flushed by line 48 or
58 when the current phrase spells a prototype property name. -/
inductive CEmit where
  | val (s : JSym) : CEmit
  | protoFn : CEmit
deriving DecidableEq

/-- Truthiness of `dict[p]` on a plain object (line 45): an own entry (all
stored values are truthy) or an inherited prototype property. -/
def jsTruthy (d : CDict) (p : List Nat) : Bool :=
  (alookup d p).isSome || decide (p ∈ protoKeys)

/-- The value of `dict[s]` as emitted by line 48 or 58: an own entry when
present, otherwise the inherited function for a prototype property name,
otherwise JavaScript undefined. -/
def emitJS (d : CDict) (s : List Nat) : CEmit :=
  match alookup d s with
  | some v => .val v
  | none => if s ∈ protoKeys then .protoFn else .val JSym.undef

/-- Main loop of `lzwCompress` (lines 43-58) with the prototype chain of the
plain-object dictionary. -/
def lzwLoopJS (d : CDict) (n : Nat) (s : List Nat) : List Nat → List CEmit
  | [] => if s = [] then [] else [emitJS d s]
  | c :: cs =>
    if jsTruthy d (s ++ [c]) then lzwLoopJS d n (s ++ [c]) cs
    else
      emitJS d s ::
        (let p := cinsert d n (s ++ [c])
         lzwLoopJS p.1 p.2 [c] cs)

/-- The function `lzwCompress` with the prototype chain modelled. -/
def lzwCompressJS (inputData : List Nat) : List CEmit :=
  lzwLoopJS initC 256 [] inputData

/-- Observed `dictLen` values of the faithful compressor loop. -/
def lzwLoopTraceJS (d : CDict) (n : Nat) (s : List Nat) : List Nat → List Nat
  | [] => []
  | c :: cs =>
    if jsTruthy d (s ++ [c]) then lzwLoopTraceJS d n (s ++ [c]) cs
    else
      let p := cinsert d n (s ++ [c])
      p.2 :: lzwLoopTraceJS p.1 p.2 [c] cs

/-- Observed `dictLen` sequence of a faithful `lzwCompress` call. -/
def lzwCompressDictLensJS (inputData : List Nat) : List Nat :=
  lzwLoopTraceJS initC 256 [] inputData

/-- String coercion of a compressor emission, for the decompressor. -/
def CEmit.toStr : CEmit → List Nat
  | .val s => s.toStr
  | .protoFn => fnStr

/-- Reading index 0 of a compressor emission: a function has no index
properties, so the access yields undefined printed as a string. -/
def CEmit.firstStr : CEmit → Option (List Nat)
  | .val s => s.firstStr
  | .protoFn => some undefinedStr

/-- Contribution of a raw compressor emission to the joined output. -/
def CEmit.outStr : CEmit → List Nat
  | .val s => s.outStr
  | .protoFn => fnStr

/-- Resolution of a decompressor code that may be a flushed function: the
property key is then the coerced function-source string — never a
one-character or numeral dictionary key and not a prototype property name —
so the read misses, and a function compares unequal to the number
`dictLen`, so line 74 throws. -/
def resolveEmit (e : DDict) (m : Nat) (pstr : List Nat)
    (pfirst : Option (List Nat)) : CEmit → Except DErr (List Nat)
  | .val s => resolveData e m pstr pfirst s
  | .protoFn => .error DErr.badlyCompressed

/-- Main loop of `lzwDecompress` over possibly-degenerate compressor
output. -/
def dzwLoopJS (e : DDict) (m : Nat) (pstr : List Nat)
    (pfirst : Option (List Nat)) : List CEmit → Except DErr (List Nat)
  | [] => .ok []
  | c :: cs =>
    match resolveEmit e m pstr pfirst c with
    | .error err => .error err
    | .ok data =>
      let p := dinsert e m (pstr ++ data.take 1)
      match dzwLoopJS p.1 p.2 data (some (data.take 1)) cs with
      | .error err => .error err
      | .ok rest => .ok (data ++ rest)

/-- The function `lzwDecompress` over possibly-degenerate compressor
output. -/
def lzwDecompressJS (encodingArray : List CEmit) : Except DErr (List Nat) :=
  match encodingArray with
  | [] => .ok []
  | c :: cs =>
    match dzwLoopJS initD 256 c.toStr c.firstStr cs with
    | .error err => .error err
    | .ok rest => .ok (c.outStr ++ rest)

/-- Observed `dictLen` values of the decompressor loop over
possibly-degenerate compressor output. -/
def dzwLoopTraceJS (e : DDict) (m : Nat) (pstr : List Nat)
    (pfirst : Option (List Nat)) : List CEmit → List Nat
  | [] => []
  | c :: cs =>
    match resolveEmit e m pstr pfirst c with
    | .error _ => []
    | .ok data =>
      let p := dinsert e m (pstr ++ data.take 1)
      p.2 :: dzwLoopTraceJS p.1 p.2 data (some (data.take 1)) cs

/-- Observed `dictLen` sequence of a decompress call over possibly-degenerate
compressor output. -/
def lzwDecompressDictLensJS (encodingArray : List CEmit) : List Nat :=
  match encodingArray with
  | [] => []
  | c :: cs => dzwLoopTraceJS initD 256 c.toStr c.firstStr cs

/-- The 27 bytes of the characters v a v a l v a l u v a l u e v a l u e O
v a l u e O f: the concatenation of the successive prefixes of length 2 to 7
of the word valueOf, which teaches the compressor the phrases va, val, valu,
value, valueO and then reaches the phrase valueOf itself. -/
def protoFailInput : List Nat :=
  [118, 97, 118, 97, 108, 118, 97, 108, 117, 118, 97, 108, 117, 101,
   118, 97, 108, 117, 101, 79, 118, 97, 108, 117, 101, 79, 102]

/-- Away from prototype property names, the emitted value is the own entry
or undefined, as in the prototype-free model. -/
theorem emitJS_of_not_proto {d : CDict} {s : List Nat} (h : s ∉ protoKeys) :
    emitJS d s = .val ((alookup d s).getD JSym.undef) := by
  cases hl : alookup d s <;> simp [emitJS, hl, h]

/-- Away from prototype property names, truthiness is own-key presence. -/
theorem jsTruthy_of_not_proto {d : CDict} {p : List Nat} (h : p ∉ protoKeys) :
    jsTruthy d p = (alookup d p).isSome := by
  simp [jsTruthy, h]

/-- On a remaining input whose every phrase window avoids the prototype
property names, the faithful compressor loop coincides with the
prototype-free one (output and trace). -/
theorem lzwLoopJS_eq (cs : List Nat) :
    ∀ (d : CDict) (n : Nat) (s pre : List Nat),
    (∀ p ∈ protoKeys, ¬ List.IsInfix p (pre ++ (s ++ cs))) →
    lzwLoopJS d n s cs = (lzwLoop d n s cs).map CEmit.val
    ∧ lzwLoopTraceJS d n s cs = lzwLoopTrace d n s cs := by
  induction cs with
  | nil =>
    intro d n s pre hp
    constructor
    · by_cases hs : s = []
      · simp [lzwLoopJS, lzwLoop, hs]
      · have hsp : s ∉ protoKeys := by
          intro hmem
          exact hp s hmem ⟨pre, [], by simp⟩
        simp [lzwLoopJS, lzwLoop, hs, emitJS_of_not_proto hsp]
    · rfl
  | cons c cs ih =>
    intro d n s pre hp
    have hkp : (s ++ [c]) ∉ protoKeys := by
      intro hmem
      exact hp _ hmem ⟨pre, cs, by simp⟩
    have hT := jsTruthy_of_not_proto (d := d) hkp
    by_cases hm : (alookup d (s ++ [c])).isSome
    · have hp' : ∀ p ∈ protoKeys, ¬ List.IsInfix p (pre ++ ((s ++ [c]) ++ cs)) := by
        intro p hmem hinf
        apply hp p hmem
        simpa [List.append_assoc] using hinf
      obtain ⟨h1, h2⟩ := ih d n (s ++ [c]) pre hp'
      constructor
      · simp [lzwLoopJS, lzwLoop, hT, hm, h1]
      · simp [lzwLoopTraceJS, lzwLoopTrace, hT, hm, h2]
    · have hsp : s ∉ protoKeys := by
        intro hmem
        exact hp s hmem ⟨pre, c :: cs, by simp⟩
      have hp' : ∀ p ∈ protoKeys, ¬ List.IsInfix p ((pre ++ s) ++ ([c] ++ cs)) := by
        intro p hmem hinf
        apply hp p hmem
        simpa [List.append_assoc] using hinf
      obtain ⟨h1, h2⟩ := ih (cinsert d n (s ++ [c])).1 (cinsert d n (s ++ [c])).2
        [c] (pre ++ s) hp'
      constructor
      · simp [lzwLoopJS, lzwLoop, hT, hm, h1, emitJS_of_not_proto hsp]
      · simp [lzwLoopTraceJS, lzwLoopTrace, hT, hm, h2]

/-- On inputs without prototype-name substrings, the faithful compressor
coincides with the prototype-free model (output and trace). -/
theorem lzwCompressJS_eq {B : List Nat}
    (h : ∀ p ∈ protoKeys, ¬ List.IsInfix p B) :
    lzwCompressJS B = (lzwCompress B).map CEmit.val
    ∧ lzwCompressDictLensJS B = lzwCompressDictLens B := by
  have h' : ∀ p ∈ protoKeys,
      ¬ List.IsInfix p (([] : List Nat) ++ (([] : List Nat) ++ B)) := by
    simpa using h
  exact lzwLoopJS_eq B initC 256 [] [] h'

/-- On proper symbols the degenerate-aware decompressor loop coincides with
the plain one (result and trace). -/
theorem dzwLoopJS_val (codes : List JSym) : ∀ (e : DDict) (m : Nat)
    (pstr : List Nat) (pfirst : Option (List Nat)),
    dzwLoopJS e m pstr pfirst (codes.map CEmit.val)
      = dzwLoop e m pstr pfirst codes
    ∧ dzwLoopTraceJS e m pstr pfirst (codes.map CEmit.val)
      = dzwLoopTrace e m pstr pfirst codes := by
  induction codes with
  | nil =>
    intro e m pstr pfirst
    exact ⟨rfl, rfl⟩
  | cons c cs ih =>
    intro e m pstr pfirst
    cases hres : resolveData e m pstr pfirst c with
    | error err =>
      constructor
      · simp [dzwLoopJS, dzwLoop, resolveEmit, hres]
      · simp [dzwLoopTraceJS, dzwLoopTrace, resolveEmit, hres]
    | ok data =>
      obtain ⟨h1, h2⟩ := ih (dinsert e m (pstr ++ data.take 1)).1
        (dinsert e m (pstr ++ data.take 1)).2 data (some (data.take 1))
      constructor
      · simp [dzwLoopJS, dzwLoop, resolveEmit, hres, h1]
      · simp [dzwLoopTraceJS, dzwLoopTrace, resolveEmit, hres, h2]

/-- On proper symbols the degenerate-aware decompressor coincides with the
plain one (result and trace). -/
theorem lzwDecompressJS_val (codes : List JSym) :
    lzwDecompressJS (codes.map CEmit.val) = lzwDecompress codes
    ∧ lzwDecompressDictLensJS (codes.map CEmit.val)
      = lzwDecompressDictLens codes := by
  cases codes with
  | nil => exact ⟨rfl, rfl⟩
  | cons c cs =>
    obtain ⟨h1, h2⟩ := dzwLoopJS_val cs initD 256 c.toStr c.firstStr
    constructor
    · simp only [List.map_cons, lzwDecompressJS, lzwDecompress,
        CEmit.toStr, CEmit.firstStr, CEmit.outStr, h1]
    · simp only [List.map_cons, lzwDecompressDictLensJS, lzwDecompressDictLens,
        CEmit.toStr, CEmit.firstStr, h2]

/-- On byte inputs without prototype-name substrings, the faithful
compressor and decompressor round-trip and stay in lockstep: together with
the divergence theorems below, this isolates the prototype leak as the
exact failure of the program. -/
theorem lzw_roundtrip_no_proto (B : List Nat) (hB : ∀ x ∈ B, x < 256)
    (h : ∀ p ∈ protoKeys, ¬ List.IsInfix p B) :
    lzwDecompressJS (lzwCompressJS B) = .ok B
    ∧ lzwDecompressDictLensJS (lzwCompressJS B) = lzwCompressDictLensJS B := by
  obtain ⟨hc, hct⟩ := lzwCompressJS_eq h
  obtain ⟨hrt, hlock, _⟩ := lzw_main B hB
  obtain ⟨hd, hdt⟩ := lzwDecompressJS_val (lzwCompress B)
  rw [hc]
  constructor
  · rw [hd, hrt]
  · rw [hdt, hlock, ← hct]

/-! ### Claim theorems -/

set_option maxRecDepth 40000

/-- Width constant as a numeral. -/
theorem BPE_eq : BITS_PER_ENCODING = 9 := rfl

/-- Well-formedness of a symbol is decidable. -/
instance (c : JSym) : Decidable (JSymOk c) :=
  match c with
  | .chr b => inferInstanceAs (Decidable (b < 256))
  | .num k => inferInstanceAs (Decidable (256 ≤ k ∧ k < 512))
  | .undef => inferInstanceAs (Decidable False)

/-- The numeric value of a well-formed symbol fits in the code width. -/
theorem JSymOk_code_lt {c : JSym} (h : JSymOk c) : c.code < 2 ^ 9 := by
  have h512 : (2:Nat) ^ 9 = 512 := by norm_num
  rw [h512]
  cases c with
  | chr b => simp only [JSymOk] at h; simp only [JSym.code]; omega
  | num k => simp only [JSymOk] at h; simp only [JSym.code]; omega
  | undef => simp [JSymOk] at h

/-- C1 (code bug): the program does not satisfy the claimed round trip.  At
the 27-byte input `protoFailInput` — which satisfies the length-times-8
divisible-by-9 hypothesis of the claim — the compressor embedded faithfully
with the prototype chain of its plain-object dictionary (`lzwCompressJS`)
matches the phrase valueOf through the inherited `Object.prototype` entry
and flushes the inherited function into its output, diverging from the
prototype-free dictionary model; decompressing that very output aborts, so
no stage of the pipeline can return the input.  By
`lzw_roundtrip_no_proto`, the round trip does hold on every byte input
without prototype-name substrings, isolating the plain-object dictionary as
the slip. -/
theorem C1_proto_divergence :
    protoFailInput.length * 8 % 9 = 0
    ∧ CEmit.protoFn ∈ lzwCompressJS protoFailInput
    ∧ lzwCompressJS protoFailInput ≠ (lzwCompress protoFailInput).map CEmit.val
    ∧ lzwDecompressJS (lzwCompressJS protoFailInput)
        = .error DErr.badlyCompressed :=
  ⟨by decide, by decide, by decide, rfl⟩

/-- C2 counterexample: the facade packs with the discard flag UNSET.  On the
single code 511 (nine one bits), the facade emits the padded final byte 128
instead of dropping the trailing group as the claim states, so its output
differs from the discard-flag conversion. -/
theorem C2_counterexample :
    getByteArrayFromEncodingArray [JSym.num 511] = some [255, 128]
    ∧ convertEncodingArrayUnitLength ([JSym.num 511].map JSym.code)
        BITS_PER_ENCODING 8 true = some [255]
    ∧ getByteArrayFromEncodingArray [JSym.num 511]
        ≠ convertEncodingArrayUnitLength ([JSym.num 511].map JSym.code)
            BITS_PER_ENCODING 8 true :=
  ⟨rfl, rfl, by decide⟩

/-- C2 (amended): `getByteArrayFromEncodingArray` calls the transcoder with
fromWidth = W, toWidth = 8 and the discard-incomplete flag UNSET (`false`,
line 93): for every code sequence, the final group of fewer than 8 bits is
zero-padded on the right into a final byte, so the output holds
ceil(9·n/8) bytes and its concatenated bit string is the code bit string
right-padded with zeros to the next byte boundary. -/
theorem C2_pack_amended (codes : List JSym) (h : ∀ c ∈ codes, JSymOk c) :
    ∃ out, getByteArrayFromEncodingArray codes = some out
      ∧ out.length = (9 * codes.length + 7) / 8
      ∧ packBits 8 out
          = packBits 9 (codes.map JSym.code)
            ++ List.replicate ((8 - 9 * codes.length % 8) % 8) 0 := by
  have hvals : ∀ v ∈ codes.map JSym.code, v < 2 ^ 9 := by
    intro v hv
    rw [List.mem_map] at hv
    obtain ⟨c, hc, rfl⟩ := hv
    exact JSymOk_code_lt (h c hc)
  have hlen9 : (packBits 9 (codes.map JSym.code)).length = 9 * codes.length := by
    rw [packBits_length hvals, List.length_map]
  have h1 : getByteArrayFromEncodingArray codes
      = some (reslice 8 false (packBits 9 (codes.map JSym.code))) := by
    simp only [getByteArrayFromEncodingArray, BPE_eq]
    exact convert_eq_some hvals
  obtain ⟨hun, _⟩ := unpack_reslice_false (by norm_num : (1:Nat) ≤ 8)
    (packBits 9 (codes.map JSym.code)).length _ le_rfl packBits_le_one
  refine ⟨_, h1, ?_, ?_⟩
  · rw [reslice_length_false (by norm_num : (1:Nat) ≤ 8) _ _ le_rfl, hlen9]
    omega
  · have hun' : packBits 8 (reslice 8 false (packBits 9 (codes.map JSym.code)))
        = packBits 9 (codes.map JSym.code)
          ++ List.replicate
            ((8 - (packBits 9 (codes.map JSym.code)).length % 8) % 8) 0 := hun
    rw [hun', hlen9]

/-- C2 witness: instantiation of the amended packing behavior at the single
code 511. -/
theorem C2_pack_amended_witness :
    ∃ out, getByteArrayFromEncodingArray [JSym.num 511] = some out
      ∧ out.length = (9 * ([JSym.num 511] : List JSym).length + 7) / 8
      ∧ packBits 8 out
          = packBits 9 ([JSym.num 511].map JSym.code)
            ++ List.replicate ((8 - 9 * ([JSym.num 511] : List JSym).length % 8) % 8) 0 :=
  C2_pack_amended [JSym.num 511] (by decide)

/-- C3 counterexample: the facade unpacks with the discard flag SET.  On the
single byte 255 the eight available bits are fewer than the code width 9, so
the facade returns the empty code array, while the claim (flag unset, short
group zero-padded) would produce the code 510. -/
theorem C3_counterexample :
    getEncodingArrayFromByteArray [255] = some []
    ∧ (convertEncodingArrayUnitLength [255] 8 BITS_PER_ENCODING false).map
        (List.map symOfVal) = some [JSym.num 510]
    ∧ getEncodingArrayFromByteArray [255]
        ≠ (convertEncodingArrayUnitLength [255] 8 BITS_PER_ENCODING false).map
            (List.map symOfVal) :=
  ⟨rfl, rfl, by decide⟩

/-- C3 (amended): `getEncodingArrayFromByteArray` calls the transcoder with
fromWidth = 8, toWidth = W and the discard-incomplete flag SET (`true`,
line 97), so a short trailing group is dropped (floor(8·n/9) codes remain),
and then maps every resulting value at most 255 to the literal-byte symbol
while larger values remain integer dictionary indices. -/
theorem C3_unpack_amended (ba : List Nat) (h : ∀ x ∈ ba, x < 256) :
    ∃ vals, convertEncodingArrayUnitLength ba 8 BITS_PER_ENCODING true = some vals
      ∧ getEncodingArrayFromByteArray ba = some (vals.map symOfVal)
      ∧ vals.length = 8 * ba.length / 9
      ∧ ∀ v ∈ vals, (v ≤ 255 → symOfVal v = JSym.chr v)
          ∧ (255 < v → symOfVal v = JSym.num v) := by
  have hvals : ∀ v ∈ ba, v < 2 ^ 8 := by
    intro v hv
    have h256 : (2:Nat) ^ 8 = 256 := by norm_num
    rw [h256]
    exact h v hv
  have hc : convertEncodingArrayUnitLength ba 8 BITS_PER_ENCODING true
      = some (reslice 9 true (packBits 8 ba)) := by
    rw [BPE_eq]
    exact convert_eq_some hvals
  refine ⟨_, hc, ?_, ?_, ?_⟩
  · simp only [getEncodingArrayFromByteArray, hc]
  · rw [reslice_length_true (by norm_num : (1:Nat) ≤ 9) _ _ le_rfl,
      packBits_length hvals]
  · intro v _
    constructor
    · intro hv
      rw [symOfVal, if_neg (by omega)]
    · intro hv
      rw [symOfVal, if_pos hv]

/-- C3 witness: instantiation of the amended unpacking behavior at the single
byte 255, where the eight bits are dropped entirely. -/
theorem C3_unpack_amended_witness :
    ∃ vals, convertEncodingArrayUnitLength [255] 8 BITS_PER_ENCODING true = some vals
      ∧ getEncodingArrayFromByteArray [255] = some (vals.map symOfVal)
      ∧ vals.length = 8 * ([255] : List Nat).length / 9
      ∧ ∀ v ∈ vals, (v ≤ 255 → symOfVal v = JSym.chr v)
          ∧ (255 < v → symOfVal v = JSym.num v) :=
  C3_unpack_amended [255] (by decide)

/-- C4: `lzwDecompress` raises the "badly compressed" error if and only if
some symbol after the first is neither a key of the current dictionary nor
equal to the next-to-be-assigned index `dictLen` — the relation `BadRun`
expresses exactly that run condition.  The error is fatal: the `Except.error`
result carries no partial or recovered output. -/
theorem C4_badly_compressed_iff (codes : List JSym) :
    lzwDecompress codes = .error DErr.badlyCompressed
    ↔ ∃ c cs, codes = c :: cs ∧ BadRun initD 256 c.toStr c.firstStr cs := by
  cases codes with
  | nil =>
    constructor
    · intro h
      simp [lzwDecompress] at h
    · rintro ⟨c, cs, h, _⟩
      simp at h
  | cons c cs =>
    have hiff := dzw_error_iff cs initD 256 c.toStr c.firstStr initD_vals
      (toStr_ne_nil c)
    constructor
    · intro h
      refine ⟨c, cs, rfl, hiff.mp ?_⟩
      cases hdz : dzwLoop initD 256 c.toStr c.firstStr cs with
      | error err =>
        simp only [lzwDecompress, hdz, Except.error.injEq] at h
        subst h
        rfl
      | ok rest =>
        simp only [lzwDecompress, hdz] at h
        cases h
    · rintro ⟨c', cs', heq, hbad⟩
      injection heq with h1 h2
      subst h1
      subst h2
      have hdz := hiff.mpr hbad
      simp [lzwDecompress, hdz]

/-- C5: throughout every compress and decompress call, every observed
dictionary length stays within `[256, 511]`, never exceeding
`DICT_SIZE = 512`; and whenever an insertion makes `dictLen` reach
`DICT_SIZE`, both insertion helpers immediately reset to the initial
256-entry dictionary with `dictLen = 256`. -/
theorem C5_dict_bound :
    (∀ (B : List Nat) (v : Nat), v ∈ lzwCompressDictLens B →
      256 ≤ v ∧ v < DICT_SIZE)
    ∧ (∀ (codes : List JSym) (v : Nat), v ∈ lzwDecompressDictLens codes →
      256 ≤ v ∧ v < DICT_SIZE)
    ∧ (∀ (d : CDict) (n : Nat) (q : List Nat), DICT_SIZE ≤ n + 1 →
      cinsert d n q = (initC, 256))
    ∧ (∀ (e : DDict) (m : Nat) (q : List Nat), DICT_SIZE ≤ m + 1 →
      dinsert e m q = (initD, 256)) := by
  refine ⟨?_, ?_, ?_, ?_⟩
  · intro B v hv
    have := lzwLoopTrace_bounds B initC 256 [] le_rfl (by omega) v hv
    rw [DICT_SIZE_eq]
    omega
  · intro codes v hv
    cases codes with
    | nil => simp [lzwDecompressDictLens] at hv
    | cons c cs =>
      have := dzwLoopTrace_bounds cs initD 256 c.toStr c.firstStr le_rfl
        (by omega) v hv
      rw [DICT_SIZE_eq]
      omega
  · intro d n q hn
    simp [cinsert, hn]
  · intro e m q hm
    simp [dinsert, hm]

/-- C5 witness: the observed value 257 after the first insertion of a
concrete compress run is within bounds, and a full-capacity insertion resets
both dictionaries. -/
theorem C5_dict_bound_witness :
    (256 ≤ 257 ∧ 257 < DICT_SIZE)
    ∧ cinsert initC 511 [1, 2] = (initC, 256)
    ∧ dinsert initD 511 [1, 2] = (initD, 256) :=
  ⟨C5_dict_bound.1 [102, 103, 102] 257 (by decide),
   C5_dict_bound.2.2.1 initC 511 [1, 2] (by decide),
   C5_dict_bound.2.2.2 initD 511 [1, 2] (by decide)⟩

/-- C6 (code bug): the program does not keep the dictionaries in lockstep on
every input.  At `protoFailInput` the faithful compressor performs ten
insertions (observed `dictLen` values 257 to 266), while the decompressor
fed the compressor output aborts at the flushed inherited function after
only nine, so the two observed sequences do not match at every step.  By
`lzw_roundtrip_no_proto`, the traces do coincide on every byte input
without prototype-name substrings. -/
theorem C6_proto_divergence :
    lzwCompressDictLensJS protoFailInput
      = [257, 258, 259, 260, 261, 262, 263, 264, 265, 266]
    ∧ lzwDecompressDictLensJS (lzwCompressJS protoFailInput)
      = [257, 258, 259, 260, 261, 262, 263, 264, 265]
    ∧ lzwCompressDictLensJS protoFailInput
      ≠ lzwDecompressDictLensJS (lzwCompressJS protoFailInput) :=
  ⟨rfl, rfl, by decide⟩

/-- C7: packing the two three-bit codes 0b101 and 0b011 into bytes with the
discard flag yields the empty array (six bits are fewer than eight); and any
eight three-bit codes pack into exactly three bytes from which the inverse
call with discard unset recovers all eight values. -/
theorem C7_bit_packing :
    convertEncodingArrayUnitLength [5, 3] 3 8 true = some []
    ∧ ∀ codes : List Nat, codes.length = 8 → (∀ v ∈ codes, v < 8) →
      ∃ bytes, convertEncodingArrayUnitLength codes 3 8 true = some bytes
        ∧ bytes.length = 3
        ∧ convertEncodingArrayUnitLength bytes 8 3 false = some codes := by
  constructor
  · rfl
  · intro codes hlen hv
    have hv' : ∀ v ∈ codes, v < 2 ^ 3 := by
      intro v hx
      have h8 : (2:Nat) ^ 3 = 8 := by norm_num
      rw [h8]
      exact hv v hx
    have hbl : (packBits 3 codes).length = 24 := by
      rw [packBits_length hv', hlen]
    have hconv1 : convertEncodingArrayUnitLength codes 3 8 true
        = some (reslice 8 true (packBits 3 codes)) := convert_eq_some hv'
    have hdvd : (8:Nat) ∣ (packBits 3 codes).length := by
      rw [hbl]
      norm_num
    have htf : reslice 8 true (packBits 3 codes)
        = reslice 8 false (packBits 3 codes) :=
      reslice_true_of_dvd (by norm_num) (packBits 3 codes).length _ le_rfl hdvd
    obtain ⟨hun, hbound⟩ := unpack_reslice_false (by norm_num : (1:Nat) ≤ 8)
      (packBits 3 codes).length (packBits 3 codes) le_rfl packBits_le_one
    refine ⟨reslice 8 true (packBits 3 codes), hconv1, ?_, ?_⟩
    · rw [htf, reslice_length_false (by norm_num : (1:Nat) ≤ 8) _ _ le_rfl, hbl]
    · have hb2 : ∀ v ∈ reslice 8 true (packBits 3 codes), v < 2 ^ 8 := by
        rw [htf]
        exact hbound
      rw [convert_eq_some hb2]
      have hpad : packBits 8 (reslice 8 true (packBits 3 codes))
          = packBits 3 codes := by
        rw [htf]
        have hun' : packBits 8 (reslice 8 false (packBits 3 codes))
            = packBits 3 codes
              ++ List.replicate ((8 - (packBits 3 codes).length % 8) % 8) 0 := hun
        rw [hun', hbl]
        norm_num
      rw [hpad, reslice_packBits (by norm_num) codes hv']

/-- C7 witness: the eight three-bit codes 5,3,7,0,1,2,6,4 pack into three
bytes and unpack back to themselves. -/
theorem C7_bit_packing_witness :
    ∃ bytes, convertEncodingArrayUnitLength [5, 3, 7, 0, 1, 2, 6, 4] 3 8 true
        = some bytes
      ∧ bytes.length = 3
      ∧ convertEncodingArrayUnitLength bytes 8 3 false
        = some [5, 3, 7, 0, 1, 2, 6, 4] :=
  C7_bit_packing.2 [5, 3, 7, 0, 1, 2, 6, 4] (by decide) (by decide)

/-- C8: compressing thirteen bytes 102 (the string of thirteen characters f)
emits five codes, strictly fewer than thirteen, and decompressing that code
sequence — whose second code 256 exercises the self-referential case —
reproduces the thirteen bytes exactly. -/
theorem C8_fff_scenario :
    (lzwCompress (List.replicate 13 102)).length < 13
    ∧ lzwDecompress (lzwCompress (List.replicate 13 102))
        = .ok (List.replicate 13 102) :=
  ⟨by decide, rfl⟩

/-- C9: compressing the empty input yields the empty code sequence; the model
function is total, so no error is raised, and the flush step emits nothing
because the running phrase stays empty. -/
theorem C9_empty_input : lzwCompress [] = [] := rfl

